import Mathlib

/-!
Verification of the ATLAS clone-detector core (aegis::similarity).

This file gives a shallow embedding, in Lean 4, of the C++ core of the
repository: the Rabin-Karp rolling hash (core/rolling_hash.cpp), the inverted
hash index with pair enumeration, merging and size filtering
(core/hash_index.cpp), the clone classifier (core/similarity_detector.cpp) and
the Type-3 clone extender (core/clone_extender.cpp), together with theorems
settling the specification claims about them.

Modelling conventions:
 - C++ unsigned integers are modelled as natural numbers; wherever the C++
   code can actually wrap (uint64_t products and sums in the rolling hash,
   uint32_t sums in merging) the embedding reduces modulo 2^64 or 2^32
   exactly where the C++ expression does.
 - float similarity values are modelled as exact rationals; the similarity
   arithmetic of the code is a division of two small integral counts.
 - std::unordered_map iteration order is unspecified in C++; the index is
   modelled as an association list in first-insertion order.  std::sort is
   unspecified on tied keys; it is modelled as a stable insertion sort
   consistent with the comparator.
 - C++ while loops in the extender are modelled by structural recursion on an
   explicit fuel argument; the call sites pass a fuel that provably exceeds
   the loop variant, so the fuel never runs out (see the fuel sufficiency
   lemmas), keeping the embedding executable by kernel reduction.
-/

/-! ## Rolling hash (core/rolling_hash.cpp) -/

/-- The modulus of uint64_t arithmetic. -/
def U64 : ℕ := 18446744073709551616

/-- The modulus of uint32_t arithmetic. -/
def U32 : ℕ := 4294967296

/-- The modulus of uint16_t arithmetic. -/
def U16 : ℕ := 65536

/-- State of the RollingHash class: window size, current hash, the
precomputed constant BASE^(window_size-1) mod MOD, and the deque of
window contents (front = oldest). -/
structure RollingHash where
  window_size : ℕ
  hash : ℕ
  base_power : ℕ
  window : List ℕ
  deriving Repr, DecidableEq

/-- Hash constant BASE = 31. -/
def RollingHash.BASE : ℕ := 31

/-- Hash constant MOD = 1e9 + 9. -/
def RollingHash.MOD : ℕ := 1000000009

/-- The RollingHash constructor: hash 0, empty window, and base_power
computed by the loop that repeatedly multiplies by BASE and reduces mod MOD,
which yields BASE^(window_size-1) mod MOD (the intermediate products never
reach 2^64, so the uint64 arithmetic is exact). -/
def RollingHash.init (k : ℕ) : RollingHash :=
  ⟨k, 0, RollingHash.BASE ^ (k - 1) % RollingHash.MOD, []⟩

/-- RollingHash::push.  Returns the updated state and the optional emitted
window hash.  The two arithmetic steps reduce mod 2^64 exactly where the
uint64_t expressions of the source can wrap.  The impossible case of
removing from an empty full window (reachable only for window_size = 0,
where the C++ has undefined behaviour) leaves the window empty. -/
def RollingHash.push (st : RollingHash) (token_hash : ℕ) : RollingHash × Option ℕ :=
  let hw :
      ℕ × List ℕ :=
    if st.window_size ≤ st.window.length then
      match st.window with
      | [] => (st.hash, [])
      | old_token :: rest =>
        let old_contribution := old_token * st.base_power % U64 % RollingHash.MOD
        let h :=
          if old_contribution ≤ st.hash then st.hash - old_contribution
          else RollingHash.MOD - (old_contribution - st.hash)
        (h, rest)
    else (st.hash, st.window)
  let hash2 := (hw.1 * RollingHash.BASE + token_hash) % U64 % RollingHash.MOD
  let window2 := hw.2 ++ [token_hash]
  (⟨st.window_size, hash2, st.base_power, window2⟩,
    if st.window_size ≤ window2.length then some hash2 else none)

/-- RollingHash::compute_hash: the direct (non-rolling) hash of a sequence,
folding hash = (hash * BASE + t) in uint64 arithmetic, reduced mod MOD at
each step.  The early return 0 of the source on an empty input coincides
with the fold. -/
def RollingHash.compute_hash (token_hashes : List ℕ) : ℕ :=
  token_hashes.foldl (fun h t => (h * RollingHash.BASE + t) % U64 % RollingHash.MOD) 0

/-- Loop body of HashSequence::compute_all: push every element, recording
(start position, hash) whenever a hash is emitted; i is the loop index. -/
def HashSequence.compute_all_aux (st : RollingHash) (i : ℕ) : List ℕ → List (ℕ × ℕ)
  | [] => []
  | t :: rest =>
    let pr := st.push t
    match pr.2 with
    | some hv => (i + 1 - st.window_size, hv) :: HashSequence.compute_all_aux pr.1 (i + 1) rest
    | none => HashSequence.compute_all_aux pr.1 (i + 1) rest

/-- HashSequence::compute_all: all window hashes of a token sequence with
their start positions. -/
def HashSequence.compute_all (token_hashes : List ℕ) (window_size : ℕ) : List (ℕ × ℕ) :=
  if token_hashes.length < window_size then []
  else HashSequence.compute_all_aux (RollingHash.init window_size) 0 token_hashes

/-! ### Rolling hash correctness infrastructure -/

/-- The unreduced polynomial value of a token list in base 31. -/
def polyVal (l : List ℕ) : ℕ :=
  l.foldl (fun h t => h * RollingHash.BASE + t) 0

/-- The window of the last (at most) k elements of the first n elements. -/
def winAt (s : List ℕ) (k n : ℕ) : List ℕ :=
  (s.take n).drop (n - k)

theorem polyVal_shift (l : List ℕ) : ∀ a : ℕ,
    l.foldl (fun h t => h * RollingHash.BASE + t) a =
      a * RollingHash.BASE ^ l.length + polyVal l := by
  induction l with
  | nil => intro a; simp [polyVal]
  | cons t l ih =>
    intro a
    have h1 := ih (a * RollingHash.BASE + t)
    have h2 := ih (0 * RollingHash.BASE + t)
    simp only [polyVal, List.foldl_cons, List.length_cons]
    rw [h1, h2]
    ring

theorem polyVal_cons (t : ℕ) (l : List ℕ) :
    polyVal (t :: l) = t * RollingHash.BASE ^ l.length + polyVal l := by
  simpa [polyVal] using polyVal_shift l t

theorem polyVal_append_single (l : List ℕ) (t : ℕ) :
    polyVal (l ++ [t]) = polyVal l * RollingHash.BASE + t := by
  simp [polyVal, List.foldl_append]

theorem step_no_wrap {h t : ℕ} (hh : h < RollingHash.MOD) (ht : t < U32) :
    (h * RollingHash.BASE + t) % U64 = h * RollingHash.BASE + t := by
  apply Nat.mod_eq_of_lt
  have : h * RollingHash.BASE ≤ 1000000008 * 31 := by
    apply Nat.mul_le_mul_right
    simpa [RollingHash.MOD] using Nat.lt_succ_iff.mp (by simpa [RollingHash.MOD] using hh)
  simp only [U64, U32] at *
  omega

/-- Faithful fold equals polynomial value mod MOD, for sub-2^32 tokens. -/
theorem compute_hash_eq_polyVal_aux (l : List ℕ) :
    ∀ a : ℕ, a < RollingHash.MOD → (∀ t ∈ l, t < U32) →
      l.foldl (fun h t => (h * RollingHash.BASE + t) % U64 % RollingHash.MOD) a =
        l.foldl (fun h t => h * RollingHash.BASE + t) a % RollingHash.MOD := by
  induction l with
  | nil =>
    intro a ha _
    simpa using (Nat.mod_eq_of_lt ha).symm
  | cons t l ih =>
    intro a ha hb
    have ht : t < U32 := hb t (by simp)
    simp only [List.foldl_cons]
    rw [step_no_wrap ha ht]
    rw [ih _ (Nat.mod_lt _ (by norm_num [RollingHash.MOD]))
      (fun x hx => hb x (by simp [hx]))]
    rw [polyVal_shift, polyVal_shift]
    exact Nat.ModEq.add_right _ (Nat.ModEq.mul_right _ (Nat.mod_modEq _ _))

theorem compute_hash_eq_polyVal {l : List ℕ} (hb : ∀ t ∈ l, t < U32) :
    RollingHash.compute_hash l = polyVal l % RollingHash.MOD := by
  simpa [RollingHash.compute_hash, polyVal] using
    compute_hash_eq_polyVal_aux l 0 (by norm_num [RollingHash.MOD]) hb

theorem roll_sub (A P : ℕ) :
    (if A % RollingHash.MOD ≤ (A + P) % RollingHash.MOD then
        (A + P) % RollingHash.MOD - A % RollingHash.MOD
      else RollingHash.MOD - (A % RollingHash.MOD - (A + P) % RollingHash.MOD)) %
        RollingHash.MOD = P % RollingHash.MOD ∧
    (if A % RollingHash.MOD ≤ (A + P) % RollingHash.MOD then
        (A + P) % RollingHash.MOD - A % RollingHash.MOD
      else RollingHash.MOD - (A % RollingHash.MOD - (A + P) % RollingHash.MOD)) <
        RollingHash.MOD := by
  simp only [RollingHash.MOD]
  split_ifs with h <;> constructor <;> omega

/-- Pushing onto a not-yet-full window appends and keeps the running hash
equal to the polynomial value of the window mod MOD. -/
theorem push_grow (k : ℕ) (bp : ℕ) (w : List ℕ) (t : ℕ) (hw : w.length < k) (ht : t < U32) :
    RollingHash.push ⟨k, polyVal w % RollingHash.MOD, bp, w⟩ t =
      (⟨k, polyVal (w ++ [t]) % RollingHash.MOD, bp, w ++ [t]⟩,
        if k ≤ w.length + 1 then some (polyVal (w ++ [t]) % RollingHash.MOD) else none) := by
  have hlt : polyVal w % RollingHash.MOD < RollingHash.MOD :=
    Nat.mod_lt _ (by norm_num [RollingHash.MOD])
  have hhash : (polyVal w % RollingHash.MOD * RollingHash.BASE + t) % RollingHash.MOD =
      polyVal (w ++ [t]) % RollingHash.MOD := by
    rw [polyVal_append_single]
    conv_rhs => rw [Nat.add_mod, Nat.mul_mod]
    rw [Nat.add_mod, Nat.mul_mod, Nat.mod_mod]
  simp only [RollingHash.push, Nat.not_le.mpr hw, if_false, step_no_wrap hlt ht, hhash,
    List.length_append, List.length_cons, List.length_nil, Nat.zero_add]

/-- Pushing onto a full window of size k rolls it: the oldest element is
dropped, the new one appended, and the hash stays the polynomial value of
the window mod MOD.  Requires sub-2^32 elements so that no uint64
multiplication wraps. -/
theorem push_roll (k : ℕ) (old : ℕ) (tl : List ℕ) (t : ℕ)
    (htl : tl.length = k - 1) (hk : 1 ≤ k) (hold : old < U32) (ht : t < U32) :
    RollingHash.push
        ⟨k, polyVal (old :: tl) % RollingHash.MOD,
          RollingHash.BASE ^ (k - 1) % RollingHash.MOD, old :: tl⟩ t =
      (⟨k, polyVal (tl ++ [t]) % RollingHash.MOD,
          RollingHash.BASE ^ (k - 1) % RollingHash.MOD, tl ++ [t]⟩,
        some (polyVal (tl ++ [t]) % RollingHash.MOD)) := by
  have hfull : k ≤ (old :: tl).length := by simp [htl]; omega
  have hnowrap : old * (RollingHash.BASE ^ (k - 1) % RollingHash.MOD) % U64 =
      old * (RollingHash.BASE ^ (k - 1) % RollingHash.MOD) := by
    apply Nat.mod_eq_of_lt
    have h1 : RollingHash.BASE ^ (k - 1) % RollingHash.MOD < RollingHash.MOD :=
      Nat.mod_lt _ (by norm_num [RollingHash.MOD])
    calc old * (RollingHash.BASE ^ (k - 1) % RollingHash.MOD)
        ≤ (U32 - 1) * (RollingHash.MOD - 1) := by
          apply Nat.mul_le_mul <;> omega
      _ < U64 := by norm_num [U32, U64, RollingHash.MOD]
  have hcontrib : old * (RollingHash.BASE ^ (k - 1) % RollingHash.MOD) % U64 %
      RollingHash.MOD = old * RollingHash.BASE ^ (k - 1) % RollingHash.MOD := by
    rw [hnowrap]
    conv_lhs => rw [Nat.mul_mod, Nat.mod_mod]
    rw [← Nat.mul_mod]
  have hpv : polyVal (old :: tl) = old * RollingHash.BASE ^ (k - 1) + polyVal tl := by
    rw [polyVal_cons, htl]
  have hroll := roll_sub (old * RollingHash.BASE ^ (k - 1)) (polyVal tl)
  simp only [RollingHash.push, hfull, if_true, hcontrib, hpv]
  set C := old * RollingHash.BASE ^ (k - 1) % RollingHash.MOD with hC
  set H := (old * RollingHash.BASE ^ (k - 1) + polyVal tl) % RollingHash.MOD with hH
  set hsub := if C ≤ H then H - C else RollingHash.MOD - (C - H) with hs
  have h1 : hsub % RollingHash.MOD = polyVal tl % RollingHash.MOD := hroll.1
  have h2 : hsub < RollingHash.MOD := hroll.2
  rw [step_no_wrap h2 ht]
  have h3 : (hsub * RollingHash.BASE + t) % RollingHash.MOD =
      polyVal (tl ++ [t]) % RollingHash.MOD := by
    rw [polyVal_append_single]
    rw [Nat.add_mod, Nat.mul_mod, h1, ← Nat.mul_mod, ← Nat.add_mod]
  simp only [h3]
  have hlen : k ≤ tl.length + 1 := by omega
  simp [hlen]

/-! ### Window bookkeeping for the sliding-window invariant -/

theorem winAt_zero (s : List ℕ) (k : ℕ) : winAt s k 0 = [] := by
  simp [winAt]

theorem winAt_length (s : List ℕ) (k n : ℕ) (hn : n ≤ s.length) :
    (winAt s k n).length = min n k := by
  simp only [winAt, List.length_drop, List.length_take]
  omega

theorem winAt_succ_small (s : List ℕ) (k n : ℕ) (t : ℕ) (rest : List ℕ)
    (hdrop : s.drop n = t :: rest) (h : n + 1 ≤ k) :
    winAt s k (n + 1) = winAt s k n ++ [t] := by
  have hget : s[n]? = some t := by
    have := List.getElem?_drop s n 0
    simp [hdrop] at this
    simpa using this.symm
  simp only [winAt, Nat.sub_eq_zero_of_le h, Nat.sub_eq_zero_of_le (by omega : n ≤ k),
    List.drop_zero]
  rw [List.take_succ, hget]
  rfl

theorem winAt_roll (s : List ℕ) (k n : ℕ) (t : ℕ) (rst : List ℕ)
    (hk : 1 ≤ k) (hkn : k ≤ n) (hdrop : s.drop n = t :: rst) :
    ∃ old tl, winAt s k n = old :: tl ∧ tl.length = k - 1 ∧ old ∈ s ∧
      winAt s k (n + 1) = tl ++ [t] := by
  obtain ⟨k1, rfl⟩ : ∃ k1, k = k1 + 1 := ⟨k - 1, by omega⟩
  have hn : n < s.length := by
    by_contra hcon
    rw [List.drop_eq_nil_of_le (by omega)] at hdrop
    exact List.noConfusion hdrop
  have hm : n - (k1 + 1) < s.length := by omega
  have hwin : winAt s (k1 + 1) n = (s.drop (n - (k1 + 1))).take (k1 + 1) := by
    simp only [winAt, List.drop_take]
    congr 1
    omega
  have hcons : s.drop (n - (k1 + 1)) = s[n - (k1 + 1)] :: s.drop (n - (k1 + 1) + 1) :=
    List.drop_eq_getElem_cons hm
  refine ⟨s[n - (k1 + 1)], (s.drop (n - (k1 + 1) + 1)).take k1, ?_, ?_,
    List.getElem_mem hm, ?_⟩
  · rw [hwin, hcons, List.take_succ_cons]
  · simp only [List.length_take, List.length_drop]
    omega
  · have hwin2 : winAt s (k1 + 1) (n + 1) = (s.drop (n - (k1 + 1) + 1)).take (k1 + 1) := by
      simp only [winAt, List.drop_take]
      have h1 : n + 1 - (n + 1 - (k1 + 1)) = k1 + 1 := by omega
      have h2 : n + 1 - (k1 + 1) = n - (k1 + 1) + 1 := by omega
      rw [h1, h2]
    rw [hwin2]
    have hgetn : (s.drop (n - (k1 + 1) + 1))[k1]? = some t := by
      rw [List.getElem?_drop]
      have harith : n - (k1 + 1) + 1 + k1 = n := by omega
      rw [harith]
      have := List.getElem?_drop s n 0
      simp [hdrop] at this
      simpa using this.symm
    rw [List.take_succ, hgetn]
    rfl

/-- Invariant of the compute_all loop: started at step n with the window
holding the last (at most k) of the first n elements and the hash equal to
that window's polynomial value mod MOD, the loop emits exactly the window
hash of every window completing at a later step. -/
theorem compute_all_aux_spec (s : List ℕ) (k : ℕ) (hk : 1 ≤ k) (hb : ∀ t ∈ s, t < U32) :
    ∀ (rest : List ℕ) (n : ℕ), s.drop n = rest →
      HashSequence.compute_all_aux
        ⟨k, polyVal (winAt s k n) % RollingHash.MOD,
          RollingHash.BASE ^ (k - 1) % RollingHash.MOD, winAt s k n⟩ n rest =
      (List.range' n (s.length - n)).filterMap
        (fun i => if k ≤ i + 1 then
          some (i + 1 - k, polyVal (winAt s k (i + 1)) % RollingHash.MOD) else none) := by
  intro rest
  induction rest with
  | nil =>
    intro n hdrop
    have hlen : s.length ≤ n := List.drop_eq_nil_iff.mp hdrop
    rw [Nat.sub_eq_zero_of_le hlen]
    rfl
  | cons t rest ih =>
    intro n hdrop
    have hn : n < s.length := by
      by_contra hcon
      rw [List.drop_eq_nil_of_le (by omega)] at hdrop
      exact List.noConfusion hdrop
    have ht : t < U32 := hb t (List.mem_of_mem_drop (hdrop ▸ List.mem_cons_self t rest))
    have hdrop2 : s.drop (n + 1) = rest := by
      rw [← List.tail_drop, hdrop]
      rfl
    have hcount : s.length - n = (s.length - (n + 1)) + 1 := by omega
    rw [hcount, List.range'_succ]
    by_cases hnk : n + 1 ≤ k
    · have hwlen : (winAt s k n).length = n := by
        rw [winAt_length s k n (by omega)]
        omega
      have hsmall : (winAt s k n).length < k := by omega
      have hsucc := winAt_succ_small s k n t rest hdrop hnk
      rw [HashSequence.compute_all_aux]
      simp only [push_grow k _ (winAt s k n) t hsmall ht, hwlen]
      rw [← hsucc]
      by_cases hfull : k ≤ n + 1
      · simp only [List.filterMap_cons, hfull, if_true]
        rw [ih (n + 1) hdrop2]
      · simp only [List.filterMap_cons, hfull, if_false]
        rw [ih (n + 1) hdrop2]
    · have hkn : k ≤ n := by omega
      obtain ⟨old, tl, hshape, htl, hmem, hsucc⟩ := winAt_roll s k n t rest hk hkn hdrop
      have hold : old < U32 := hb old hmem
      rw [HashSequence.compute_all_aux, hshape]
      simp only [push_roll k old tl t htl hk hold ht]
      rw [← hsucc]
      have hfull : k ≤ n + 1 := by omega
      simp only [List.filterMap_cons, hfull, if_true]
      rw [ih (n + 1) hdrop2]

theorem filterMap_window_emit (G : ℕ → ℕ × ℕ) (k : ℕ) (hk : 1 ≤ k) :
    ∀ (m a : ℕ), k ≤ a + 1 →
      (List.range' a m).filterMap
          (fun i => if k ≤ i + 1 then some (G (i + 1 - k)) else none) =
        (List.range' (a + 1 - k) m).map G := by
  intro m
  induction m with
  | zero => intro a _; rfl
  | succ m ih =>
    intro a ha
    rw [List.range'_succ, List.range'_succ, List.filterMap_cons]
    simp only [ha, if_true, List.map_cons]
    rw [ih (a + 1) (by omega)]
    have : a + 1 + 1 - k = a + 1 - k + 1 := by omega
    rw [this]

theorem filterMap_window_reindex (G : ℕ → ℕ × ℕ) (k : ℕ) (hk : 1 ≤ k) (len : ℕ) :
    (List.range' 0 len).filterMap
        (fun i => if k ≤ i + 1 then some (G (i + 1 - k)) else none) =
      (List.range (len + 1 - k)).map G := by
  by_cases hlen : len ≤ k - 1
  · have h0 : len + 1 - k = 0 := by omega
    rw [h0]
    apply List.filterMap_eq_nil_iff.mpr
    intro i hi
    rw [List.mem_range'] at hi
    obtain ⟨j, hj, rfl⟩ := hi
    have : ¬ k ≤ 0 + 1 * j + 1 := by omega
    simpa using this
  · have hsplit : List.range' 0 (k - 1) ++ List.range' (0 + 1 * (k - 1)) (len - (k - 1)) =
        List.range' 0 ((len - (k - 1)) + (k - 1)) := List.range'_append 0 (k - 1) (len - (k - 1)) 1
    have harith : (len - (k - 1)) + (k - 1) = len := by omega
    rw [harith] at hsplit
    rw [← hsplit, List.filterMap_append]
    have hpart1 : (List.range' 0 (k - 1)).filterMap
        (fun i => if k ≤ i + 1 then some (G (i + 1 - k)) else none) = [] := by
      apply List.filterMap_eq_nil_iff.mpr
      intro i hi
      rw [List.mem_range'] at hi
      obtain ⟨j, hj, rfl⟩ := hi
      have : ¬ k ≤ 0 + 1 * j + 1 := by omega
      simpa using this
    have hpart2 := filterMap_window_emit G k hk (len - (k - 1)) (0 + 1 * (k - 1)) (by omega)
    have e1 : 0 + 1 * (k - 1) + 1 - k = 0 := by omega
    have e2 : len - (k - 1) = len + 1 - k := by omega
    rw [e1, e2] at hpart2
    rw [hpart1, List.nil_append, e2, hpart2, List.range_eq_range']

/-! ### Claim C1 -/

/-- C1, counterexample.  As stated over arbitrary 64-bit token hashes the
claim is false: for the sequence [2^63, 0, 0] with k = 2, the product
old_token * base_power wraps around 2^64 during the roll, so the hash that
compute_all emits at start position 1 is 318247765, while the direct
polynomial hash compute_hash of the window [0, 0] at that position is 0. -/
theorem compute_all_deviates_from_direct_hash :
    HashSequence.compute_all [9223372036854775808, 0, 0] 2 =
      [(0, 177274927), (1, 318247765)] ∧
    RollingHash.compute_hash (([9223372036854775808, 0, 0].drop 1).take 2) = 0 := by
  exact ⟨by decide, by decide⟩

/-- C1, amended: restricted to token hashes below 2^32 (the pipeline only
ever feeds 32-bit token hashes widened to 64 bits, so no uint64 operation
wraps), compute_all emits, for every start position p from 0 to length - k,
exactly the pair (p, compute_hash of the k-token window at p); this is the
refinement of batch hashing to iterated push claimed by the specification. -/
theorem compute_all_eq_direct_hash_of_lt_u32 (s : List ℕ) (k : ℕ)
    (hk : 1 ≤ k) (hb : ∀ t ∈ s, t < U32) :
    HashSequence.compute_all s k =
      (List.range (s.length + 1 - k)).map
        (fun p => (p, RollingHash.compute_hash ((s.drop p).take k))) := by
  by_cases hlen : s.length < k
  · have h0 : s.length + 1 - k = 0 := by omega
    simp [HashSequence.compute_all, hlen, h0]
  · have hinit : RollingHash.init k =
        ⟨k, polyVal (winAt s k 0) % RollingHash.MOD,
          RollingHash.BASE ^ (k - 1) % RollingHash.MOD, winAt s k 0⟩ := by
      simp [RollingHash.init, winAt_zero, polyVal]
    rw [HashSequence.compute_all, if_neg hlen, hinit,
      compute_all_aux_spec s k hk hb s 0 (by simp)]
    have hfun : (fun i => if k ≤ i + 1 then
        some (i + 1 - k, polyVal (winAt s k (i + 1)) % RollingHash.MOD) else none) =
        (fun i => if k ≤ i + 1 then
          some ((fun p => (p, RollingHash.compute_hash ((s.drop p).take k))) (i + 1 - k))
          else none) := by
      funext i
      by_cases hki : k ≤ i + 1
      · simp only [hki, if_true, Option.some.injEq, Prod.mk.injEq, true_and]
        have hwin : winAt s k (i + 1) = (s.drop (i + 1 - k)).take k := by
          simp only [winAt, List.drop_take]
          congr 1
          omega
        rw [hwin, compute_hash_eq_polyVal]
        intro t htmem
        exact hb t (List.mem_of_mem_drop (List.mem_of_mem_take htmem))
      · simp [hki]
    simp only [Nat.sub_zero]
    rw [hfun, filterMap_window_reindex
      (fun p => (p, RollingHash.compute_hash ((s.drop p).take k))) k hk s.length]

/-- C1, witness for the amended theorem at the concrete input [5, 6, 7]
with k = 2. -/
theorem compute_all_eq_direct_hash_witness :
    (1 ≤ 2 ∧ ∀ t ∈ [5, 6, 7], t < U32) ∧
    HashSequence.compute_all [5, 6, 7] 2 =
      (List.range 2).map
        (fun p => (p, RollingHash.compute_hash (([5, 6, 7].drop p).take 2))) :=
  ⟨⟨by norm_num, by decide⟩,
    compute_all_eq_direct_hash_of_lt_u32 [5, 6, 7] 2 (by norm_num) (by decide)⟩

/-! ## Data model (models/clone_types.hpp) -/

/-- Token categories of the normalized token stream. -/
inductive TokenType where
  | IDENTIFIER
  | STRING_LITERAL
  | NUMBER_LITERAL
  | KEYWORD
  | OPERATOR
  | PUNCTUATION
  | TYPE
  | NEWLINE
  | INDENT
  | DEDENT
  | UNKNOWN
  deriving DecidableEq, Repr, Inhabited

/-- Structural tokens excluded from hashing by the index builder. -/
def TokenType.is_structural : TokenType → Bool
  | TokenType.NEWLINE => true
  | TokenType.INDENT => true
  | TokenType.DEDENT => true
  | _ => false

/-- A normalized token: category, 32-bit original and normalized lexeme
hashes, and source coordinates. -/
structure NormalizedToken where
  type : TokenType
  original_hash : ℕ
  normalized_hash : ℕ
  line : ℕ
  column : ℕ
  length : ℕ
  deriving DecidableEq, Repr, Inhabited

/-- A location of one hashed window inside a file. -/
structure HashLocation where
  file_id : ℕ
  start_line : ℕ
  end_line : ℕ
  start_col : ℕ
  end_col : ℕ
  token_start : ℕ
  token_count : ℕ
  deriving DecidableEq, Repr, Inhabited

/-- HashLocation::overlaps: same file and intersecting [start_line, end_line]
line ranges. -/
def HashLocation.overlaps (a other : HashLocation) : Bool :=
  if a.file_id ≠ other.file_id then false
  else decide (¬ (a.end_line < other.start_line ∨ a.start_line > other.end_line))

/-- Clone type classification tags. -/
inductive CloneType where
  | TYPE_1
  | TYPE_2
  | TYPE_3
  deriving DecidableEq, Repr, Inhabited

/-- A pair of code locations identified as clones.  The float similarity of
the source is modelled as an exact rational. -/
structure ClonePair where
  location_a : HashLocation
  location_b : HashLocation
  clone_type : CloneType
  similarity : ℚ
  shared_hash : ℕ
  deriving DecidableEq, Repr, Inhabited

/-- ClonePair::token_count: the smaller token count of the two sides. -/
def ClonePair.token_count (p : ClonePair) : ℕ :=
  min p.location_a.token_count p.location_b.token_count

/-- Result of tokenizing a single file. -/
structure TokenizedFile where
  path : String
  tokens : List NormalizedToken
  total_lines : ℕ := 0
  code_lines : ℕ := 0
  blank_lines : ℕ := 0
  comment_lines : ℕ := 0
  deriving DecidableEq, Repr, Inhabited

/-! ## Hash index (core/hash_index.cpp)

The std::unordered_map from hash to location vector is modelled as an
association list in first-insertion order; C++ leaves the iteration order
of the map unspecified. -/

/-- The inverted index: hash to locations, and the file table. -/
structure HashIndex where
  index : List (ℕ × List HashLocation)
  file_paths : List String
  deriving DecidableEq, Repr, Inhabited

/-- An empty index. -/
def HashIndex.empty : HashIndex := ⟨[], []⟩

/-- HashIndex::file_count. -/
def HashIndex.file_count (idx : HashIndex) : ℕ := idx.file_paths.length

/-- HashIndex::register_file: return the existing id of a known path, else
assign the next dense id.  The auxiliary path_to_id map of the source is
kept consistent with file_paths, so it is modelled by lookup in file_paths. -/
def HashIndex.register_file (idx : HashIndex) (path : String) : HashIndex × ℕ :=
  if path ∈ idx.file_paths then (idx, idx.file_paths.indexOf path)
  else (⟨idx.index, idx.file_paths ++ [path]⟩, idx.file_paths.length)

/-- HashIndex::get_file_path, with the empty string for unknown ids. -/
def HashIndex.get_file_path (idx : HashIndex) (file_id : ℕ) : String :=
  idx.file_paths.getD file_id ""

/-- Append a location to the bucket of a hash, creating the bucket at the
end (insertion order) when the hash is new. -/
def add_to_bucket : List (ℕ × List HashLocation) → ℕ → HashLocation →
    List (ℕ × List HashLocation)
  | [], h, loc => [(h, [loc])]
  | e :: rest, h, loc =>
    if e.1 = h then (e.1, e.2 ++ [loc]) :: rest else e :: add_to_bucket rest h loc

/-- HashIndex::add_hash. -/
def HashIndex.add_hash (idx : HashIndex) (hash : ℕ) (location : HashLocation) : HashIndex :=
  ⟨add_to_bucket idx.index hash location, idx.file_paths⟩

/-- The clone pair constructed for two locations sharing a hash: initial
classification Type-1, exact-match similarity 1. -/
def mk_clone_pair (hash : ℕ) (a b : HashLocation) : ClonePair :=
  ⟨a, b, CloneType.TYPE_1, 1, hash⟩

/-- Inner loop of pair generation: pair the head location with every later
location, skipping same-file pairs with overlapping line ranges. -/
def pairs_with_first (hash : ℕ) (a : HashLocation) (rest : List HashLocation) :
    List ClonePair :=
  rest.filterMap (fun b =>
    if a.file_id = b.file_id ∧ a.overlaps b then none else some (mk_clone_pair hash a b))

/-- The double loop of HashIndex::find_clone_pairs over one location list. -/
def bucket_pairs (hash : ℕ) : List HashLocation → List ClonePair
  | [] => []
  | a :: rest => pairs_with_first hash a rest ++ bucket_pairs hash rest

/-- HashIndex::find_clone_pairs.  The min_matches parameter is accepted but
never read by the body, exactly as in the source. -/
def HashIndex.find_clone_pairs (idx : HashIndex) (min_matches : ℕ) : List ClonePair :=
  idx.index.flatMap (fun e => if e.2.length < 2 then [] else bucket_pairs e.1 e.2)

/-- HashIndex::find_clone_pairs_parallel.  The scheduling nondeterminism of
the thread pool is abstracted by the sched parameter: the work items (the
buckets with at least two locations) arrive in the per-bucket output in some
order determined by worker timing and the bucket rotation; any permutation
of the work items is admissible, and the theorems quantify over all of them.
The small-workload short circuit is taken exactly as in the source. -/
def HashIndex.find_clone_pairs_parallel (idx : HashIndex) (pool_size : ℕ)
    (sched : List (ℕ × List HashLocation)) (min_matches : ℕ) : List ClonePair :=
  if (idx.index.filter (fun e => decide (2 ≤ e.2.length))).length < 100 ∨ pool_size ≤ 1 then
    idx.find_clone_pairs min_matches
  else sched.flatMap (fun e => bucket_pairs e.1 e.2)


/-! ### Claim C2: pair enumeration versus its specification -/

/-- The spec's notion of overlap of two [start_line, end_line] ranges. -/
def line_ranges_overlap (a b : HashLocation) : Prop :=
  a.start_line ≤ b.end_line ∧ b.start_line ≤ a.end_line

instance (a b : HashLocation) : Decidable (line_ranges_overlap a b) :=
  inferInstanceAs (Decidable (_ ∧ _))

/-- One candidate pair of the specification enumeration: skipped when both
locations belong to the same file and their line ranges overlap, otherwise
emitted with clone type Type-1 and similarity 1. -/
def spec_skip (hash : ℕ) (a b : HashLocation) : Option ClonePair :=
  if a.file_id = b.file_id ∧ line_ranges_overlap a b then none
  else some (mk_clone_pair hash a b)

/-- One row of the specification enumeration: the pairs (i, j) for fixed i
with i < j. -/
def spec_row (hash : ℕ) (locs : List HashLocation) (i : ℕ) : List ClonePair :=
  (List.range locs.length).filterMap (fun j =>
    if i < j then spec_skip hash (locs.getD i default) (locs.getD j default) else none)

/-- Specification 4.3 pair enumeration, written from the spec sentence:
every unordered pair (i, j) with i < j of a bucket's location list, with the
same-file overlapping pairs skipped. -/
def spec_pairs (hash : ℕ) (locs : List HashLocation) : List ClonePair :=
  (List.range locs.length).flatMap (spec_row hash locs)

theorem overlaps_iff (a b : HashLocation) :
    (a.file_id = b.file_id ∧ a.overlaps b) ↔
      (a.file_id = b.file_id ∧ line_ranges_overlap a b) := by
  simp only [HashLocation.overlaps, line_ranges_overlap]
  by_cases hf : a.file_id = b.file_id
  · simp [hf]
    omega
  · simp [hf]

theorem impl_skip_eq_spec_skip (hash : ℕ) (a b : HashLocation) :
    (if a.file_id = b.file_id ∧ a.overlaps b then none
      else some (mk_clone_pair hash a b)) = spec_skip hash a b := by
  rw [spec_skip]
  by_cases hcond : a.file_id = b.file_id ∧ a.overlaps b
  · rw [if_pos hcond, if_pos ((overlaps_iff a b).mp hcond)]
  · rw [if_neg hcond, if_neg (fun hc => hcond ((overlaps_iff a b).mpr hc))]

theorem pairs_with_first_eq (hash : ℕ) (a : HashLocation) (rest : List HashLocation) :
    pairs_with_first hash a rest = rest.filterMap (spec_skip hash a) := by
  rw [pairs_with_first]
  exact List.filterMap_congr (fun b _ => impl_skip_eq_spec_skip hash a b)

theorem filterMap_getD_range {α β : Type} (F : α → Option β) (d : α) :
    ∀ (l : List α) (g : ℕ → Option β), (∀ j, g j = F (l.getD j d)) →
      (List.range l.length).filterMap g = l.filterMap F := by
  intro l
  induction l with
  | nil => intro g _; rfl
  | cons a rest ih =>
    intro g hg
    have hrec := ih (fun j => g (j + 1))
      (fun j => by
        show g (j + 1) = F (rest.getD j d)
        rw [hg (j + 1), List.getD_cons_succ])
    have h0 : g 0 = F a := by rw [hg 0, List.getD_cons_zero]
    rw [List.length_cons, List.range_succ_eq_map, List.filterMap_cons, List.filterMap_map,
      List.filterMap_cons, h0]
    cases hFa : F a
    · simpa [hFa] using hrec
    · simpa [hFa] using hrec

theorem range_succ_filterMap_of_zero_none {β : Type} (g : ℕ → Option β) (n : ℕ)
    (h0 : g 0 = none) :
    (List.range (n + 1)).filterMap g = (List.range n).filterMap (fun j => g (j + 1)) := by
  rw [List.range_succ_eq_map, List.filterMap_cons_none h0, List.filterMap_map]
  rfl

theorem spec_row_zero (hash : ℕ) (a : HashLocation) (rest : List HashLocation) :
    spec_row hash (a :: rest) 0 = rest.filterMap (spec_skip hash a) := by
  rw [spec_row, List.length_cons,
    range_succ_filterMap_of_zero_none _ _ (by simp)]
  exact filterMap_getD_range (spec_skip hash a) default rest
    (fun j => if 0 < j + 1 then
      spec_skip hash ((a :: rest).getD 0 default) ((a :: rest).getD (j + 1) default)
      else none)
    (fun j => by simp [List.getD_cons_zero, List.getD_cons_succ])

theorem spec_row_succ (hash : ℕ) (a : HashLocation) (rest : List HashLocation) (i : ℕ) :
    spec_row hash (a :: rest) (i + 1) = spec_row hash rest i := by
  rw [spec_row, spec_row, List.length_cons,
    range_succ_filterMap_of_zero_none _ _ (by simp)]
  apply List.filterMap_congr
  intro j _
  simp only [List.getD_cons_succ, Nat.add_lt_add_iff_right]

theorem bucket_pairs_eq_spec (hash : ℕ) (locs : List HashLocation) :
    bucket_pairs hash locs = spec_pairs hash locs := by
  induction locs with
  | nil => rfl
  | cons a rest ih =>
    rw [bucket_pairs, ih, pairs_with_first_eq, spec_pairs, spec_pairs, List.length_cons,
      List.range_succ_eq_map, List.flatMap_cons, List.flatMap_map, spec_row_zero]
    congr 1
    apply List.flatMap_congr
    intro i _
    exact (spec_row_succ hash a rest i).symm

theorem bucket_pairs_fields (hash : ℕ) (l : List HashLocation) :
    ∀ p ∈ bucket_pairs hash l, p.clone_type = CloneType.TYPE_1 ∧ p.similarity = 1 := by
  induction l with
  | nil => intro p hp; exact absurd hp (List.not_mem_nil p)
  | cons a rest ih =>
    intro p hp
    rw [bucket_pairs, List.mem_append] at hp
    rcases hp with hp | hp
    · rw [pairs_with_first, List.mem_filterMap] at hp
      obtain ⟨b, _, hb⟩ := hp
      by_cases hcond : a.file_id = b.file_id ∧ a.overlaps b
      · rw [if_pos hcond] at hb
        exact absurd hb (Option.noConfusion)
      · rw [if_neg hcond] at hb
        cases Option.some.inj hb
        exact ⟨rfl, rfl⟩
    · exact ih p hp

/-- C2: HashIndex::find_clone_pairs emits, for every bucket with at least
two locations, exactly the unordered pairs (i, j) with i < j of its
location list, excluding same-file pairs with overlapping line ranges, and
every emitted pair carries clone type Type-1 and similarity 1. -/
theorem find_clone_pairs_spec (idx : HashIndex) (m : ℕ) :
    idx.find_clone_pairs m =
      idx.index.flatMap (fun e => if 2 ≤ e.2.length then spec_pairs e.1 e.2 else []) ∧
    ∀ p ∈ idx.find_clone_pairs m,
      p.clone_type = CloneType.TYPE_1 ∧ p.similarity = 1 := by
  constructor
  · rw [HashIndex.find_clone_pairs]
    apply List.flatMap_congr
    intro e _
    by_cases hlen : 2 ≤ e.2.length
    · rw [if_neg (by omega), if_pos hlen, bucket_pairs_eq_spec]
    · rw [if_pos (by omega), if_neg hlen]
  · intro p hp
    rw [HashIndex.find_clone_pairs, List.mem_flatMap] at hp
    obtain ⟨e, _, hpe⟩ := hp
    by_cases hlen : e.2.length < 2
    · rw [if_pos hlen] at hpe
      exact absurd hpe (List.not_mem_nil p)
    · rw [if_neg hlen] at hpe
      exact bucket_pairs_fields e.1 e.2 p hpe

/-- C2, witness: a two-location bucket across two files produces exactly
the one specified pair with type Type-1 and similarity 1. -/
theorem find_clone_pairs_spec_witness :
    mk_clone_pair 5 ⟨0, 1, 2, 0, 0, 0, 10⟩ ⟨1, 1, 2, 0, 0, 0, 10⟩ ∈
      HashIndex.find_clone_pairs
        ⟨[(5, [⟨0, 1, 2, 0, 0, 0, 10⟩, ⟨1, 1, 2, 0, 0, 0, 10⟩])], ["a", "b"]⟩ 1 ∧
    (mk_clone_pair 5 ⟨0, 1, 2, 0, 0, 0, 10⟩ ⟨1, 1, 2, 0, 0, 0, 10⟩).clone_type =
      CloneType.TYPE_1 ∧
    (mk_clone_pair 5 ⟨0, 1, 2, 0, 0, 0, 10⟩ ⟨1, 1, 2, 0, 0, 0, 10⟩).similarity = 1 :=
  ⟨by decide,
    (find_clone_pairs_spec
      ⟨[(5, [⟨0, 1, 2, 0, 0, 0, 10⟩, ⟨1, 1, 2, 0, 0, 0, 10⟩])], ["a", "b"]⟩ 1).2
      _ (by decide)⟩

/-! ### Claim C9: min_matches has no effect -/

/-- C9: the min_matches parameter of both pair enumerations has no effect on
the result: the parameter is accepted but never read, in the sequential and
in the parallel variant alike. -/
theorem find_clone_pairs_min_matches_irrelevant (idx : HashIndex) (pool_size m1 m2 : ℕ)
    (sched : List (ℕ × List HashLocation)) :
    idx.find_clone_pairs m1 = idx.find_clone_pairs m2 ∧
    idx.find_clone_pairs_parallel pool_size sched m1 =
      idx.find_clone_pairs_parallel pool_size sched m2 :=
  ⟨rfl, rfl⟩

/-! ### Claim C7: parallel enumeration equals sequential as a multiset -/

theorem flatMap_filter_dup (l : List (ℕ × List HashLocation)) :
    (l.filter (fun e => decide (2 ≤ e.2.length))).flatMap (fun e => bucket_pairs e.1 e.2) =
      l.flatMap (fun e => if e.2.length < 2 then [] else bucket_pairs e.1 e.2) := by
  induction l with
  | nil => rfl
  | cons e l ih =>
    by_cases hlen : 2 ≤ e.2.length
    · rw [List.filter_cons_of_pos (by simpa using hlen), List.flatMap_cons,
        List.flatMap_cons, ih, if_neg (by omega)]
    · rw [List.filter_cons_of_neg (by simpa using hlen), List.flatMap_cons, ih,
        if_pos (by omega), List.nil_append]

/-- C7: for every index, pool size and admissible parallel schedule (any
permutation of the work items, which covers every interleaving of the
worker buckets), find_clone_pairs_parallel returns the same multiset of
clone pairs as the sequential find_clone_pairs. -/
theorem find_clone_pairs_parallel_perm (idx : HashIndex) (pool_size m : ℕ)
    (sched : List (ℕ × List HashLocation))
    (hs : sched.Perm (idx.index.filter (fun e => decide (2 ≤ e.2.length)))) :
    (idx.find_clone_pairs_parallel pool_size sched m).Perm (idx.find_clone_pairs m) := by
  rw [HashIndex.find_clone_pairs_parallel]
  by_cases hcase : (idx.index.filter (fun e => decide (2 ≤ e.2.length))).length < 100 ∨
      pool_size ≤ 1
  · rw [if_pos hcase]
  · rw [if_neg hcase]
    show List.Perm _
      (idx.index.flatMap (fun e => if e.2.length < 2 then [] else bucket_pairs e.1 e.2))
    rw [← flatMap_filter_dup idx.index]
    exact List.Perm.flatMap_right _ hs

/-- C7, witness at a concrete index with one duplicated hash. -/
theorem find_clone_pairs_parallel_perm_witness :
    ([(7, [⟨0, 1, 1, 0, 0, 0, 3⟩, ⟨1, 5, 5, 0, 0, 2, 3⟩])] :
        List (ℕ × List HashLocation)).Perm
      ((HashIndex.index ⟨[(7, [⟨0, 1, 1, 0, 0, 0, 3⟩, ⟨1, 5, 5, 0, 0, 2, 3⟩])], ["a", "b"]⟩).filter
        (fun e => decide (2 ≤ e.2.length))) ∧
    (HashIndex.find_clone_pairs_parallel
        ⟨[(7, [⟨0, 1, 1, 0, 0, 0, 3⟩, ⟨1, 5, 5, 0, 0, 2, 3⟩])], ["a", "b"]⟩ 4
        [(7, [⟨0, 1, 1, 0, 0, 0, 3⟩, ⟨1, 5, 5, 0, 0, 2, 3⟩])] 1).Perm
      (HashIndex.find_clone_pairs
        ⟨[(7, [⟨0, 1, 1, 0, 0, 0, 3⟩, ⟨1, 5, 5, 0, 0, 2, 3⟩])], ["a", "b"]⟩ 1) :=
  ⟨by decide,
    find_clone_pairs_parallel_perm _ 4 1 _ (by decide)⟩

/-! ## Index builder (HashIndexBuilder::add_file) -/

/-- The per-token hash selected by the build switch. -/
def token_hash_of (use_normalized : Bool) (t : NormalizedToken) : ℕ :=
  if use_normalized then t.normalized_hash else t.original_hash

/-- The filtered (non-structural) token hash stream of a file. -/
def filtered_hashes (file : TokenizedFile) (use_normalized : Bool) : List ℕ :=
  (file.tokens.filter (fun t => ¬ t.type.is_structural)).map (token_hash_of use_normalized)

/-- HashIndexBuilder::add_file.  An empty file returns immediately; any
other file is registered first; a file whose filtered stream is shorter
than the window is then skipped; otherwise every window is inserted with
line/column coordinates read from the original token array through
token_mapping.  The casts to uint32 (token_start, token_count) and uint16
(end_col) reduce modulo the corresponding power of two exactly where the
source casts. -/
def HashIndexBuilder.add_file (idx : HashIndex) (window_size : ℕ) (file : TokenizedFile)
    (use_normalized : Bool) : HashIndex :=
  if file.tokens = [] then idx
  else
    let rf := idx.register_file file.path
    let token_hashes := filtered_hashes file use_normalized
    if token_hashes.length < window_size then rf.1
    else
      let window_hashes := HashSequence.compute_all token_hashes window_size
      let token_mapping := (List.range file.tokens.length).filter
        (fun i => ¬ (file.tokens.getD i default).type.is_structural)
      window_hashes.foldl (fun acc ph =>
        let orig_start := token_mapping.getD ph.1 0
        let orig_end := token_mapping.getD
          (min (ph.1 + window_size - 1) (token_mapping.length - 1)) 0
        let t0 := file.tokens.getD orig_start default
        let t1 := file.tokens.getD orig_end default
        acc.add_hash ph.2
          ⟨rf.2, t0.line, t1.line, t0.column, (t1.column + t1.length) % U16,
            ph.1 % U32, window_size % U32⟩) rf.1

/-! ### Claim C10: frame effect of add_file on too-small files -/

theorem register_file_index (idx : HashIndex) (path : String) :
    (idx.register_file path).1.index = idx.index := by
  rw [HashIndex.register_file]
  by_cases hmem : path ∈ idx.file_paths
  · rw [if_pos hmem]
  · rw [if_neg hmem]

theorem register_file_mem (idx : HashIndex) (path : String) :
    path ∈ (idx.register_file path).1.file_paths := by
  rw [HashIndex.register_file]
  by_cases hmem : path ∈ idx.file_paths
  · rw [if_pos hmem]
    exact hmem
  · rw [if_neg hmem]
    simp

theorem register_file_fresh_count (idx : HashIndex) (path : String)
    (hmem : path ∉ idx.file_paths) :
    (idx.register_file path).1.file_count = idx.file_count + 1 := by
  rw [HashIndex.register_file, if_neg hmem, HashIndex.file_count, HashIndex.file_count]
  simp

theorem register_file_stable (idx : HashIndex) (path : String) :
    ((idx.register_file path).1.register_file path).1 = (idx.register_file path).1 := by
  set J := (idx.register_file path).1 with hJ
  have hmem : path ∈ J.file_paths := register_file_mem idx path
  rw [HashIndex.register_file, if_pos hmem]

/-- C10: a non-empty file whose filtered token stream is shorter than the
window size is still registered in the file table by add_file (a fresh path
grows file_count by one, and re-registration is a no-op, so its id is
stable), while the hash buckets stay untouched; only a file with an
entirely empty token sequence is left unregistered (the index is then
completely unchanged). -/
theorem add_file_registers_small_file (idx : HashIndex) (k : ℕ) (file : TokenizedFile)
    (useN : Bool) (hne : file.tokens ≠ [])
    (hsmall : (filtered_hashes file useN).length < k) :
    (HashIndexBuilder.add_file idx k file useN).index = idx.index ∧
    file.path ∈ (HashIndexBuilder.add_file idx k file useN).file_paths ∧
    (file.path ∉ idx.file_paths →
      (HashIndexBuilder.add_file idx k file useN).file_count = idx.file_count + 1) ∧
    ((HashIndexBuilder.add_file idx k file useN).register_file file.path).1 =
      HashIndexBuilder.add_file idx k file useN ∧
    ∀ f2 : TokenizedFile, f2.tokens = [] →
      HashIndexBuilder.add_file idx k f2 useN = idx := by
  have hunfold : HashIndexBuilder.add_file idx k file useN = (idx.register_file file.path).1 := by
    rw [HashIndexBuilder.add_file, if_neg hne]
    simp only [if_pos hsmall]
  refine ⟨?_, ?_, ?_, ?_, ?_⟩
  · rw [hunfold]
    exact register_file_index idx file.path
  · rw [hunfold]
    exact register_file_mem idx file.path
  · intro hfresh
    rw [hunfold]
    exact register_file_fresh_count idx file.path hfresh
  · rw [hunfold]
    exact register_file_stable idx file.path
  · intro f2 hf2
    rw [HashIndexBuilder.add_file, if_pos hf2]

/-- C10, witness: one non-structural token, window size 2. -/
theorem add_file_registers_small_file_witness :
    ((⟨"t.py", [⟨TokenType.KEYWORD, 3, 3, 1, 1, 1⟩], 1, 1, 0, 0⟩ : TokenizedFile).tokens ≠ [] ∧
      (filtered_hashes ⟨"t.py", [⟨TokenType.KEYWORD, 3, 3, 1, 1, 1⟩], 1, 1, 0, 0⟩ true).length < 2) ∧
    (HashIndexBuilder.add_file HashIndex.empty 2
        ⟨"t.py", [⟨TokenType.KEYWORD, 3, 3, 1, 1, 1⟩], 1, 1, 0, 0⟩ true).index =
      HashIndex.empty.index ∧
    "t.py" ∈ (HashIndexBuilder.add_file HashIndex.empty 2
        ⟨"t.py", [⟨TokenType.KEYWORD, 3, 3, 1, 1, 1⟩], 1, 1, 0, 0⟩ true).file_paths ∧
    ("t.py" ∉ HashIndex.empty.file_paths →
      (HashIndexBuilder.add_file HashIndex.empty 2
          ⟨"t.py", [⟨TokenType.KEYWORD, 3, 3, 1, 1, 1⟩], 1, 1, 0, 0⟩ true).file_count =
        HashIndex.empty.file_count + 1) ∧
    ((HashIndexBuilder.add_file HashIndex.empty 2
        ⟨"t.py", [⟨TokenType.KEYWORD, 3, 3, 1, 1, 1⟩], 1, 1, 0, 0⟩ true).register_file
        "t.py").1 =
      HashIndexBuilder.add_file HashIndex.empty 2
        ⟨"t.py", [⟨TokenType.KEYWORD, 3, 3, 1, 1, 1⟩], 1, 1, 0, 0⟩ true ∧
    ∀ f2 : TokenizedFile, f2.tokens = [] →
      HashIndexBuilder.add_file HashIndex.empty 2 f2 true = HashIndex.empty :=
  ⟨⟨by decide, by decide⟩,
    add_file_registers_small_file HashIndex.empty 2
      ⟨"t.py", [⟨TokenType.KEYWORD, 3, 3, 1, 1, 1⟩], 1, 1, 0, 0⟩ true
      (by decide) (by decide)⟩

/-! ## Merging adjacent clones (HashIndex::merge_adjacent_clones) -/

/-- The uint32 end offset token_start + token_count of a location. -/
def end32 (loc : HashLocation) : ℕ := (loc.token_start + loc.token_count) % U32

/-- uint32 subtraction a - b. -/
def sub32 (a b : ℕ) : ℕ := (a + (U32 - b % U32)) % U32

/-- The sort key of the comparator at hash_index.cpp:178: the canonical
(smaller file id, larger file id) tuple followed by location_a's
token_start. -/
def pair_key (p : ClonePair) : ℕ × ℕ × ℕ :=
  (min p.location_a.file_id p.location_b.file_id,
   max p.location_a.file_id p.location_b.file_id,
   p.location_a.token_start)

/-- Strict lexicographic order on sort keys. -/
def key_lt (x y : ℕ × ℕ × ℕ) : Prop :=
  x.1 < y.1 ∨ (x.1 = y.1 ∧ (x.2.1 < y.2.1 ∨ (x.2.1 = y.2.1 ∧ x.2.2 < y.2.2)))

instance (x y : ℕ × ℕ × ℕ) : Decidable (key_lt x y) :=
  inferInstanceAs (Decidable (_ ∨ _))

/-- The strict comparator passed to std::sort. -/
def pair_lt (a b : ClonePair) : Prop := key_lt (pair_key a) (pair_key b)

instance (a b : ClonePair) : Decidable (pair_lt a b) :=
  inferInstanceAs (Decidable (key_lt _ _))

/-- The non-strict order induced by the comparator; the model sorts with a
stable insertion sort consistent with it (std::sort leaves the order of
tied elements unspecified). -/
def pair_le (a b : ClonePair) : Prop := ¬ pair_lt b a

instance (a b : ClonePair) : Decidable (pair_le a b) :=
  inferInstanceAs (Decidable (¬ _))

instance : IsTotal ClonePair pair_le := by
  constructor
  intro a b
  rw [pair_le, pair_le, pair_lt, pair_lt, key_lt, key_lt]
  omega

instance : IsTrans ClonePair pair_le := by
  constructor
  intro a b c
  rw [pair_le, pair_le, pair_le, pair_lt, pair_lt, pair_lt, key_lt, key_lt, key_lt]
  omega

/-- The same-file-pair test of the sweep (both orientations). -/
def same_files (cur nxt : ClonePair) : Prop :=
  (cur.location_a.file_id = nxt.location_a.file_id ∧
    cur.location_b.file_id = nxt.location_b.file_id) ∨
  (cur.location_a.file_id = nxt.location_b.file_id ∧
    cur.location_b.file_id = nxt.location_a.file_id)

instance (cur nxt : ClonePair) : Decidable (same_files cur nxt) :=
  inferInstanceAs (Decidable (_ ∨ _))

/-- The next pair's locations, swapped into the current orientation when
current.location_a and next.location_a live in different files. -/
def next_oriented (cur nxt : ClonePair) : HashLocation × HashLocation :=
  if cur.location_a.file_id = nxt.location_a.file_id then (nxt.location_a, nxt.location_b)
  else (nxt.location_b, nxt.location_a)

/-- The token_start values of the oriented next pair. -/
def next_starts (cur nxt : ClonePair) : ℕ × ℕ :=
  if cur.location_a.file_id = nxt.location_a.file_id
  then (nxt.location_a.token_start, nxt.location_b.token_start)
  else (nxt.location_b.token_start, nxt.location_a.token_start)

/-- The adjacency test of the sweep: the oriented next starts lie within
[cur start, cur end + max_gap] on both sides (the sum is a size_t sum). -/
def adjacent_ok (gap : ℕ) (cur nxt : ClonePair) : Prop :=
  (next_starts cur nxt).1 ≤ (end32 cur.location_a + gap) % U64 ∧
  cur.location_a.token_start ≤ (next_starts cur nxt).1 ∧
  (next_starts cur nxt).2 ≤ (end32 cur.location_b + gap) % U64 ∧
  cur.location_b.token_start ≤ (next_starts cur nxt).2

instance (gap : ℕ) (cur nxt : ClonePair) : Decidable (adjacent_ok gap cur nxt) :=
  inferInstanceAs (Decidable (_ ∧ _))

/-- Merge condition of the sweep: same file pair and adjacency on both
sides. -/
def can_merge (gap : ℕ) (cur nxt : ClonePair) : Prop :=
  same_files cur nxt ∧ adjacent_ok gap cur nxt

instance (gap : ℕ) (cur nxt : ClonePair) : Decidable (can_merge gap cur nxt) :=
  inferInstanceAs (Decidable (_ ∧ _))

/-- Merging next into current: both ends grow to the larger end offset,
token counts are recomputed from the new ends, and end lines take the
maximum; starts, file ids, clone type, similarity and hash stay. -/
def merge_with (cur nxt : ClonePair) : ClonePair :=
  let na := (next_oriented cur nxt).1
  let nb := (next_oriented cur nxt).2
  let new_end_a := max (end32 cur.location_a) (end32 na)
  let new_end_b := max (end32 cur.location_b) (end32 nb)
  { cur with
    location_a := { cur.location_a with
      token_count := sub32 new_end_a cur.location_a.token_start,
      end_line := max cur.location_a.end_line na.end_line },
    location_b := { cur.location_b with
      token_count := sub32 new_end_b cur.location_b.token_start,
      end_line := max cur.location_b.end_line nb.end_line } }

/-- The sweep loop of merge_adjacent_clones. -/
def merge_sweep (gap : ℕ) : ClonePair → List ClonePair → List ClonePair
  | cur, [] => [cur]
  | cur, nxt :: rest =>
    if can_merge gap cur nxt then merge_sweep gap (merge_with cur nxt) rest
    else cur :: merge_sweep gap nxt rest

/-- Start of the sweep: an empty input stays empty (the early return of the
source), otherwise the first sorted pair seeds the sweep. -/
def merge_start (gap : ℕ) : List ClonePair → List ClonePair
  | [] => []
  | p :: rest => merge_sweep gap p rest

/-- HashIndex::merge_adjacent_clones: sort by the comparator, then sweep. -/
def HashIndex.merge_adjacent_clones (pairs : List ClonePair) (max_gap : ℕ) :
    List ClonePair :=
  merge_start max_gap (List.insertionSort pair_le pairs)

/-- HashIndex::filter_by_size. -/
def HashIndex.filter_by_size (pairs : List ClonePair) (min_tokens : ℕ) : List ClonePair :=
  pairs.filter (fun p => decide (min_tokens ≤ p.token_count))

/-! ### Claim C8: idempotence of merging -/

/-- The data of the next pair that the merge test reads: both file ids and
both token starts. -/
def merge_key_next (p : ClonePair) : ℕ × ℕ × ℕ × ℕ :=
  (p.location_a.file_id, p.location_b.file_id,
   p.location_a.token_start, p.location_b.token_start)

theorem can_merge_congr (g : ℕ) (c n n2 : ClonePair)
    (h : merge_key_next n = merge_key_next n2) :
    can_merge g c n ↔ can_merge g c n2 := by
  simp only [merge_key_next, Prod.mk.injEq] at h
  obtain ⟨h1, h2, h3, h4⟩ := h
  rw [can_merge, can_merge, same_files, same_files, adjacent_ok, adjacent_ok,
    next_starts, next_starts, h1, h2, h3, h4]

theorem merge_with_key_next (c n : ClonePair) :
    merge_key_next (merge_with c n) = merge_key_next c := rfl

theorem merge_with_pair_key (c n : ClonePair) :
    pair_key (merge_with c n) = pair_key c := rfl

theorem merge_sweep_head (g : ℕ) :
    ∀ (l : List ClonePair) (c : ClonePair),
      ∃ d l2, merge_sweep g c l = d :: l2 ∧ merge_key_next d = merge_key_next c ∧
        pair_key d = pair_key c := by
  intro l
  induction l with
  | nil => intro c; exact ⟨c, [], rfl, rfl, rfl⟩
  | cons n rest ih =>
    intro c
    rw [merge_sweep]
    by_cases hm : can_merge g c n
    · rw [if_pos hm]
      obtain ⟨d, l2, he, hk, hp⟩ := ih (merge_with c n)
      exact ⟨d, l2, he, hk.trans (merge_with_key_next c n),
        hp.trans (merge_with_pair_key c n)⟩
    · rw [if_neg hm]
      exact ⟨c, _, rfl, rfl, rfl⟩

theorem merge_sweep_chain (g : ℕ) :
    ∀ (l : List ClonePair) (c : ClonePair),
      List.Chain' (fun x y => ¬ can_merge g x y) (merge_sweep g c l) := by
  intro l
  induction l with
  | nil => intro c; simp [merge_sweep]
  | cons n rest ih =>
    intro c
    rw [merge_sweep]
    by_cases hm : can_merge g c n
    · rw [if_pos hm]
      exact ih (merge_with c n)
    · rw [if_neg hm]
      obtain ⟨d, l2, he, hk, _⟩ := merge_sweep_head g rest n
      rw [he]
      rw [List.chain'_cons]
      constructor
      · rw [can_merge_congr g c d n hk]
        exact hm
      · rw [← he]
        exact ih n

theorem merge_sweep_of_chain (g : ℕ) :
    ∀ (l : List ClonePair) (c : ClonePair),
      List.Chain' (fun x y => ¬ can_merge g x y) (c :: l) → merge_sweep g c l = c :: l := by
  intro l
  induction l with
  | nil => intro c _; rfl
  | cons n rest ih =>
    intro c hch
    rw [List.chain'_cons] at hch
    rw [merge_sweep, if_neg hch.1, ih n hch.2]

theorem merge_sweep_mem_key (g : ℕ) :
    ∀ (l : List ClonePair) (c : ClonePair), ∀ y ∈ merge_sweep g c l,
      ∃ x ∈ c :: l, pair_key y = pair_key x := by
  intro l
  induction l with
  | nil =>
    intro c y hy
    rw [merge_sweep, List.mem_singleton] at hy
    exact ⟨c, by simp, by rw [hy]⟩
  | cons n rest ih =>
    intro c y hy
    rw [merge_sweep] at hy
    by_cases hm : can_merge g c n
    · rw [if_pos hm] at hy
      obtain ⟨x, hx, hxy⟩ := ih (merge_with c n) y hy
      rcases List.mem_cons.mp hx with hx | hx
      · exact ⟨c, by simp, by rw [hxy, hx, merge_with_pair_key]⟩
      · exact ⟨x, by simp [hx], hxy⟩
    · rw [if_neg hm, List.mem_cons] at hy
      rcases hy with hy | hy
      · exact ⟨c, by simp, by rw [hy]⟩
      · obtain ⟨x, hx, hxy⟩ := ih n y hy
        exact ⟨x, by simp [List.mem_cons.mp hx], hxy⟩

theorem pair_le_congr_left (a a2 b : ClonePair) (h : pair_key a = pair_key a2) :
    pair_le a b ↔ pair_le a2 b := by
  rw [pair_le, pair_le, pair_lt, pair_lt, h]

theorem pair_le_congr_right (a b b2 : ClonePair) (h : pair_key b = pair_key b2) :
    pair_le a b ↔ pair_le a b2 := by
  rw [pair_le, pair_le, pair_lt, pair_lt, h]

theorem merge_sweep_sorted (g : ℕ) :
    ∀ (l : List ClonePair) (c : ClonePair),
      List.Sorted pair_le (c :: l) → List.Sorted pair_le (merge_sweep g c l) := by
  intro l
  induction l with
  | nil =>
    intro c _
    simp [merge_sweep]
  | cons n rest ih =>
    intro c hs
    rw [List.sorted_cons] at hs
    obtain ⟨hcle, hs2⟩ := hs
    rw [merge_sweep]
    by_cases hm : can_merge g c n
    · rw [if_pos hm]
      apply ih (merge_with c n)
      rw [List.sorted_cons]
      constructor
      · intro b hb
        rw [pair_le_congr_left _ c _ (merge_with_pair_key c n)]
        exact hcle b (by simp [hb])
      · rw [List.sorted_cons] at hs2
        exact hs2.2
    · rw [if_neg hm]
      rw [List.sorted_cons]
      constructor
      · intro y hy
        obtain ⟨x, hx, hxy⟩ := merge_sweep_mem_key g rest n y hy
        rw [pair_le_congr_right c _ _ hxy]
        exact hcle x hx
      · exact ih n hs2

/-- C8: HashIndex::merge_adjacent_clones is idempotent: applied to its own
output with the same max_gap it returns that output unchanged, for every
input pair list and every gap. -/
theorem merge_adjacent_clones_idempotent (pairs : List ClonePair) (gap : ℕ) :
    HashIndex.merge_adjacent_clones (HashIndex.merge_adjacent_clones pairs gap) gap =
      HashIndex.merge_adjacent_clones pairs gap := by
  simp only [HashIndex.merge_adjacent_clones]
  cases hsort : List.insertionSort pair_le pairs with
  | nil => rfl
  | cons p rest =>
    simp only [merge_start]
    have hsorted : List.Sorted pair_le (p :: rest) := by
      rw [← hsort]
      exact List.sorted_insertionSort pair_le pairs
    have hout_sorted := merge_sweep_sorted gap rest p hsorted
    have hchain := merge_sweep_chain gap rest p
    obtain ⟨d, l2, he, _, _⟩ := merge_sweep_head gap rest p
    rw [List.Sorted.insertionSort_eq hout_sorted, he]
    simp only [merge_start]
    exact merge_sweep_of_chain gap l2 d (he ▸ hchain)

/-! ### Claim C6: the merge procedure as described by the spec -/

/-- Sort key claimed by the spec sentence: the canonical file-id tuple,
then the token_start in the smaller-file-id side. -/
def spec_claimed_key (p : ClonePair) : ℕ × ℕ × ℕ :=
  (min p.location_a.file_id p.location_b.file_id,
   max p.location_a.file_id p.location_b.file_id,
   if p.location_b.file_id < p.location_a.file_id then p.location_b.token_start
   else p.location_a.token_start)

/-- Comparator induced by the claimed sort key. -/
def spec_claimed_le (a b : ClonePair) : Prop :=
  ¬ key_lt (spec_claimed_key b) (spec_claimed_key a)

instance (a b : ClonePair) : Decidable (spec_claimed_le a b) :=
  inferInstanceAs (Decidable (¬ _))

/-- The sweep adjacency written as the spec phrases it: the oriented next
start lies in [cur start, cur end + max_gap], on both sides. -/
def described_adjacency (gap : ℕ) (cur nxt : ClonePair) : Prop :=
  cur.location_a.token_start ≤ (next_starts cur nxt).1 ∧
  (next_starts cur nxt).1 ≤ (end32 cur.location_a + gap) % U64 ∧
  cur.location_b.token_start ≤ (next_starts cur nxt).2 ∧
  (next_starts cur nxt).2 ≤ (end32 cur.location_b + gap) % U64

instance (gap : ℕ) (cur nxt : ClonePair) : Decidable (described_adjacency gap cur nxt) :=
  inferInstanceAs (Decidable (_ ∧ _))

/-- The sweep as the spec describes it: successive pairs on the same file
pair, in the same orientation, merge exactly when both adjacency interval
conditions hold; merging sets each side's end to the larger end and extends
end_line (merge_with). -/
def described_sweep (gap : ℕ) : ClonePair → List ClonePair → List ClonePair
  | cur, [] => [cur]
  | cur, nxt :: rest =>
    if same_files cur nxt ∧ described_adjacency gap cur nxt
    then described_sweep gap (merge_with cur nxt) rest
    else cur :: described_sweep gap nxt rest

/-- Emit nothing on empty input, else sweep from the first sorted pair. -/
def described_start (gap : ℕ) : List ClonePair → List ClonePair
  | [] => []
  | p :: rest => described_sweep gap p rest

/-- The merge procedure exactly as claim C6 words it (sort by the claimed
key, then the described sweep). -/
def spec_claimed_merge (pairs : List ClonePair) (max_gap : ℕ) : List ClonePair :=
  described_start max_gap (List.insertionSort spec_claimed_le pairs)

/-- Sort key of the amended claim: the canonical file-id tuple, then
location_a's token_start regardless of which side has the smaller file id. -/
def described_sort_key (p : ClonePair) : ℕ × ℕ × ℕ :=
  (min p.location_a.file_id p.location_b.file_id,
   max p.location_a.file_id p.location_b.file_id,
   p.location_a.token_start)

/-- Comparator induced by the amended sort key. -/
def described_le (a b : ClonePair) : Prop :=
  ¬ key_lt (described_sort_key b) (described_sort_key a)

instance (a b : ClonePair) : Decidable (described_le a b) :=
  inferInstanceAs (Decidable (¬ _))

/-- The merge procedure as the amended claim describes it. -/
def described_merge_adjacent (pairs : List ClonePair) (max_gap : ℕ) : List ClonePair :=
  described_start max_gap (List.insertionSort described_le pairs)

/-- C6, counterexample: three pairs on the same file pair, all oriented
with the larger file id in location_a.  The implementation sorts by
location_a's token_start, the claim says by the smaller-file-id side's
token_start; the two orders make different pairs adjacent, so the claimed
procedure merges two of them while the implementation merges none. -/
theorem merge_sort_key_counterexample :
    HashIndex.merge_adjacent_clones
        [⟨⟨1, 0, 0, 0, 0, 0, 10⟩, ⟨0, 0, 0, 0, 0, 0, 10⟩, CloneType.TYPE_1, 1, 0⟩,
         ⟨⟨1, 0, 0, 0, 0, 5, 10⟩, ⟨0, 0, 0, 0, 0, 5, 10⟩, CloneType.TYPE_1, 1, 0⟩,
         ⟨⟨1, 0, 0, 0, 0, 2, 10⟩, ⟨0, 0, 0, 0, 0, 300, 10⟩, CloneType.TYPE_1, 1, 0⟩] 5 ≠
      spec_claimed_merge
        [⟨⟨1, 0, 0, 0, 0, 0, 10⟩, ⟨0, 0, 0, 0, 0, 0, 10⟩, CloneType.TYPE_1, 1, 0⟩,
         ⟨⟨1, 0, 0, 0, 0, 5, 10⟩, ⟨0, 0, 0, 0, 0, 5, 10⟩, CloneType.TYPE_1, 1, 0⟩,
         ⟨⟨1, 0, 0, 0, 0, 2, 10⟩, ⟨0, 0, 0, 0, 0, 300, 10⟩, CloneType.TYPE_1, 1, 0⟩] 5 := by
  decide

theorem described_sweep_eq (gap : ℕ) :
    ∀ (l : List ClonePair) (c : ClonePair), described_sweep gap c l = merge_sweep gap c l := by
  intro l
  induction l with
  | nil => intro c; rfl
  | cons n rest ih =>
    intro c
    rw [described_sweep, merge_sweep]
    have hiff : (same_files c n ∧ described_adjacency gap c n) ↔ can_merge gap c n := by
      rw [can_merge, described_adjacency, adjacent_ok]
      constructor
      · rintro ⟨hs, h1, h2, h3, h4⟩
        exact ⟨hs, h2, h1, h4, h3⟩
      · rintro ⟨hs, h1, h2, h3, h4⟩
        exact ⟨hs, h2, h1, h4, h3⟩
    rw [if_congr hiff (ih (merge_with c n)) (by rw [ih n])]

/-- C6, amended: merge_adjacent_clones sorts by the canonicalized
(smaller-file-id, larger-file-id) tuple and then by location_a's
token_start (not by the smaller-file-id side's token_start), and then
sweeps exactly as the claim describes: successive pairs on the same file
pair, swapped into the same orientation when necessary, merge exactly when
both oriented next starts lie in [cur start, cur end + max_gap], merging by
taking the larger end on each side and extending end_line. -/
theorem merge_adjacent_clones_described (pairs : List ClonePair) (gap : ℕ) :
    HashIndex.merge_adjacent_clones pairs gap = described_merge_adjacent pairs gap := by
  rw [HashIndex.merge_adjacent_clones, described_merge_adjacent]
  have hsort : List.insertionSort described_le pairs = List.insertionSort pair_le pairs := rfl
  rw [hsort]
  cases List.insertionSort pair_le pairs with
  | nil => rfl
  | cons p rest =>
    rw [described_start, merge_start]
    exact (described_sweep_eq gap rest p).symm

/-! ## Clone extender (core/clone_extender.cpp)

The while loops of the extender are modelled by structural recursion on an
explicit fuel argument.  Every loop iteration strictly decreases the
distance of the positions to the loop bounds, and the entry points pass
that distance plus one as fuel, so the fuel never runs out; the fuel
sufficiency lemmas below make this formal. -/

/-- The normalized hash of the token at an index (indices stay in bounds at
every use reachable from the pipeline; out of range reads the default
token, where the C++ would be undefined). -/
def norm_at (toks : List NormalizedToken) (i : ℕ) : ℕ :=
  (toks.getD i default).normalized_hash

/-- The original hash of the token at an index. -/
def orig_at (toks : List NormalizedToken) (i : ℕ) : ℕ :=
  (toks.getD i default).original_hash

/-- CloneExtender::Config with its default values. -/
structure CloneExtender.Config where
  max_gap : ℕ := 5
  min_similarity : ℚ := 7/10
  min_tokens : ℕ := 30
  lookahead : ℕ := 10
  deriving Repr, DecidableEq

/-- The bounded forward gap search of alignment_similarity: the smallest g
in [1, max_gap] with pos + g inside the limit matching the given hash.  The
C++ for loop stops at the first g with pos + g out of range; since that
bound is monotone in g, stopping and filtering coincide. -/
def align_find_gap (hashv : ℕ) (toks : List NormalizedToken) (pos lim gap : ℕ) :
    Option ℕ :=
  (List.range' 1 gap).find?
    (fun g => decide (pos + g < lim) && decide (norm_at toks (pos + g) = hashv))

/-- The two-pointer walk of alignment_similarity, counting matches. -/
def align_loop (A B : List NormalizedToken) (endA endB gap : ℕ) :
    ℕ → ℕ → ℕ → ℕ → ℕ
  | 0, _, _, cnt => cnt
  | fuel + 1, posA, posB, cnt =>
    if posA < endA ∧ posB < endB then
      if norm_at A posA = norm_at B posB then
        align_loop A B endA endB gap fuel (posA + 1) (posB + 1) (cnt + 1)
      else
        match align_find_gap (norm_at A posA) B posB endB gap with
        | some g => align_loop A B endA endB gap fuel posA (posB + g) cnt
        | none =>
          match align_find_gap (norm_at B posB) A posA endA gap with
          | some g => align_loop A B endA endB gap fuel (posA + g) posB cnt
          | none => align_loop A B endA endB gap fuel (posA + 1) (posB + 1) cnt
    else cnt

/-- CloneExtender::alignment_similarity: matches divided by the larger
(unclamped) count; the clamped ends bound the walk. -/
def CloneExtender.alignment_similarity (A : List NormalizedToken) (start_a count_a : ℕ)
    (B : List NormalizedToken) (start_b count_b : ℕ) (max_gap : ℕ) : ℚ :=
  if count_a = 0 ∨ count_b = 0 then 0
  else
    let end_a := min (start_a + count_a) A.length
    let end_b := min (start_b + count_b) B.length
    let cnt := align_loop A B end_a end_b max_gap
      ((end_a - start_a) + (end_b - start_b) + 1) start_a start_b 0
    (cnt : ℚ) / ((max count_a count_b : ℕ) : ℚ)

/-- The row-major rectangle search of extend_forward: the first offset pair
(la, lb) other than (0, 0), within the lookahead radius and the token
arrays, whose tokens match; it resyncs only when both offsets are within
max_gap (a match with a larger offset does not stop the scan, exactly as in
the source, because the gap test sits inside the hash test).  The loop
bound tests pos + offset against the array length; both stops are monotone,
so stopping and filtering coincide. -/
def resync_search (A B : List NormalizedToken) (posA posB lookahead maxgap : ℕ) :
    Option (ℕ × ℕ) :=
  ((List.range (lookahead + 1)).flatMap (fun la =>
    (List.range (lookahead + 1)).map (fun lb => (la, lb)))).find?
    (fun p => (!(decide (p.1 = 0) && decide (p.2 = 0))) &&
      decide (posA + p.1 < A.length) && decide (posB + p.2 < B.length) &&
      decide (norm_at A (posA + p.1) = norm_at B (posB + p.2)) &&
      decide (p.1 ≤ maxgap) && decide (p.2 ≤ maxgap))

/-- The backward rectangle search of extend_backward, stepping down from
check positions. -/
def resync_search_back (A B : List NormalizedToken)
    (checkA checkB lookahead maxgap : ℕ) : Option (ℕ × ℕ) :=
  ((List.range (lookahead + 1)).flatMap (fun la =>
    (List.range (lookahead + 1)).map (fun lb => (la, lb)))).find?
    (fun p => (!(decide (p.1 = 0) && decide (p.2 = 0))) &&
      decide (p.1 ≤ checkA) && decide (p.2 ≤ checkB) &&
      decide (norm_at A (checkA - p.1) = norm_at B (checkB - p.2)) &&
      decide (p.1 ≤ maxgap) && decide (p.2 ≤ maxgap))

/-- The forward extension loop, counting lockstep matches (gap skips are
not counted, exactly as in the source). -/
def extend_forward_loop (cfg : CloneExtender.Config) (A B : List NormalizedToken) :
    ℕ → ℕ → ℕ → ℕ → ℕ
  | 0, _, _, ext => ext
  | fuel + 1, posA, posB, ext =>
    if posA < A.length ∧ posB < B.length then
      if norm_at A posA = norm_at B posB then
        extend_forward_loop cfg A B fuel (posA + 1) (posB + 1) (ext + 1)
      else
        match resync_search A B posA posB cfg.lookahead cfg.max_gap with
        | some p => extend_forward_loop cfg A B fuel (posA + p.1) (posB + p.2) ext
        | none => ext
    else ext

/-- CloneExtender::extend_forward. -/
def CloneExtender.extend_forward (cfg : CloneExtender.Config)
    (A : List NormalizedToken) (posA : ℕ) (B : List NormalizedToken) (posB : ℕ) : ℕ :=
  extend_forward_loop cfg A B ((A.length - posA) + (B.length - posB) + 1) posA posB 0

/-- The backward extension loop. -/
def extend_backward_loop (cfg : CloneExtender.Config) (A B : List NormalizedToken) :
    ℕ → ℕ → ℕ → ℕ → ℕ
  | 0, _, _, ext => ext
  | fuel + 1, posA, posB, ext =>
    if 0 < posA ∧ 0 < posB then
      if norm_at A (posA - 1) = norm_at B (posB - 1) then
        extend_backward_loop cfg A B fuel (posA - 1) (posB - 1) (ext + 1)
      else
        match resync_search_back A B (posA - 1) (posB - 1) cfg.lookahead cfg.max_gap with
        | some p => extend_backward_loop cfg A B fuel (posA - 1 - p.1) (posB - 1 - p.2) ext
        | none => ext
    else ext

/-- CloneExtender::extend_backward. -/
def CloneExtender.extend_backward (cfg : CloneExtender.Config)
    (A : List NormalizedToken) (posA : ℕ) (B : List NormalizedToken) (posB : ℕ) : ℕ :=
  extend_backward_loop cfg A B (posA + posB + 1) posA posB 0

/-- The extended window of a seed: backward extension count subtracted from
both starts, forward extension count added to both ends (counts only, not
the resync jump targets, exactly as in the source). -/
structure ExtRange where
  start_a : ℕ
  end_a : ℕ
  start_b : ℕ
  end_b : ℕ
  deriving Repr, DecidableEq

/-- The start and end offsets of the extended region of a seed pair. -/
def extended_range (cfg : CloneExtender.Config) (pair : ClonePair)
    (fa fb : TokenizedFile) : ExtRange :=
  let start_a := pair.location_a.token_start
  let start_b := pair.location_b.token_start
  let end_a := start_a + pair.location_a.token_count
  let end_b := start_b + pair.location_b.token_count
  let back_ext := CloneExtender.extend_backward cfg fa.tokens start_a fb.tokens start_b
  let fwd_ext := CloneExtender.extend_forward cfg fa.tokens end_a fb.tokens end_b
  ⟨start_a - back_ext, end_a + fwd_ext, start_b - back_ext, end_b + fwd_ext⟩

/-- The alignment similarity recomputed over the extended ranges. -/
def recomputed_similarity (cfg : CloneExtender.Config) (pair : ClonePair)
    (fa fb : TokenizedFile) : ℚ :=
  let r := extended_range cfg pair fa fb
  CloneExtender.alignment_similarity fa.tokens r.start_a (r.end_a - r.start_a)
    fb.tokens r.start_b (r.end_b - r.start_b) cfg.max_gap

/-- The lockstep original-hash comparison over count positions. -/
def all_original_match (A : List NormalizedToken) (sa : ℕ)
    (B : List NormalizedToken) (sb : ℕ) (count : ℕ) : Bool :=
  (List.range count).all (fun i => decide (orig_at A (sa + i) = orig_at B (sb + i)))

/-- CloneExtender::extend. -/
def CloneExtender.extend (cfg : CloneExtender.Config) (pair : ClonePair)
    (fa fb : TokenizedFile) : ClonePair :=
  let A := fa.tokens
  let B := fb.tokens
  let r := extended_range cfg pair fa fb
  let sim := recomputed_similarity cfg pair fa fb
  if sim < cfg.min_similarity then pair
  else
    { pair with
      location_a := { pair.location_a with
        token_start := r.start_a % U32,
        token_count := (r.end_a - r.start_a) % U32,
        start_line := if r.start_a < A.length then (A.getD r.start_a default).line
          else pair.location_a.start_line,
        end_line := if 0 < r.end_a ∧ r.end_a ≤ A.length then (A.getD (r.end_a - 1) default).line
          else pair.location_a.end_line },
      location_b := { pair.location_b with
        token_start := r.start_b % U32,
        token_count := (r.end_b - r.start_b) % U32,
        start_line := if r.start_b < B.length then (B.getD r.start_b default).line
          else pair.location_b.start_line,
        end_line := if 0 < r.end_b ∧ r.end_b ≤ B.length then (B.getD (r.end_b - 1) default).line
          else pair.location_b.end_line },
      similarity := sim,
      clone_type :=
        if 1 ≤ sim then
          if all_original_match A r.start_a B r.start_b
              (min (r.end_a - r.start_a) (r.end_b - r.start_b)) then CloneType.TYPE_1
          else CloneType.TYPE_2
        else CloneType.TYPE_3 }

/-- The file map of extend_all: the last file with a given path wins, as
repeated map assignment overwrites. -/
def file_map_find (files : List TokenizedFile) (path : String) : Option TokenizedFile :=
  files.foldl (fun acc f => if f.path = path then some f else acc) none

/-- The per-seed body of CloneExtender::extend_all: a seed whose file paths
do not both resolve in the file map passes through unchanged; an extended
pair is kept only when it meets the minimum size. -/
def extend_one (cfg : CloneExtender.Config) (files : List TokenizedFile)
    (idx : HashIndex) (pair : ClonePair) : List ClonePair :=
  match file_map_find files (idx.get_file_path pair.location_a.file_id),
        file_map_find files (idx.get_file_path pair.location_b.file_id) with
  | some fa, some fb =>
    let ext := CloneExtender.extend cfg pair fa fb
    if cfg.min_tokens ≤ ext.token_count then [ext] else []
  | some _, none => [pair]
  | none, some _ => [pair]
  | none, none => [pair]

/-- CloneExtender::extend_all. -/
def CloneExtender.extend_all (cfg : CloneExtender.Config) (pairs : List ClonePair)
    (files : List TokenizedFile) (idx : HashIndex) : List ClonePair :=
  pairs.flatMap (extend_one cfg files idx)

/-! ## Classifier (SimilarityDetector::classify_clone) -/

/-- The file lookup loop of classify_clone: scans all tokenized files and
keeps the last one whose path equals the looked-up path. -/
def find_file_for (files : List TokenizedFile) (path : String) : Option TokenizedFile :=
  files.foldl (fun acc f => if path = f.path then some f else acc) none

/-- The Type-1 versus Type-2 test of spec 4.4, written from the spec
sentence: differing token counts give Type-2, otherwise the lockstep
original-hash comparison decides. -/
def classify_type12 (A : List NormalizedToken) (sa ca : ℕ)
    (B : List NormalizedToken) (sb cb : ℕ) : CloneType :=
  if ca ≠ cb then CloneType.TYPE_2
  else if all_original_match A sa B sb ca then CloneType.TYPE_1
  else CloneType.TYPE_2

/-- SimilarityDetector::classify_clone.  Type-1 fallbacks: detect_type2
disabled, a file not found among the tokenized files, or a range out of
bounds. -/
def SimilarityDetector.classify_clone (detect_type2 : Bool) (idx : HashIndex)
    (files : List TokenizedFile) (pair : ClonePair) : CloneType :=
  if ¬ detect_type2 then CloneType.TYPE_1
  else
    match find_file_for files (idx.get_file_path pair.location_a.file_id),
          find_file_for files (idx.get_file_path pair.location_b.file_id) with
    | some fa, some fb =>
      if fa.tokens.length < pair.location_a.token_start + pair.location_a.token_count ∨
          fb.tokens.length < pair.location_b.token_start + pair.location_b.token_count then
        CloneType.TYPE_1
      else if pair.location_a.token_count ≠ pair.location_b.token_count then
        CloneType.TYPE_2
      else if all_original_match fa.tokens pair.location_a.token_start
          fb.tokens pair.location_b.token_start pair.location_a.token_count then
        CloneType.TYPE_1
      else CloneType.TYPE_2
    | some _, none => CloneType.TYPE_1
    | none, some _ => CloneType.TYPE_1
    | none, none => CloneType.TYPE_1

/-! ### Loop bounds for the alignment walk -/

theorem align_loop_le_a (A B : List NormalizedToken) (endA endB gap : ℕ) :
    ∀ (fuel posA posB cnt : ℕ),
      align_loop A B endA endB gap fuel posA posB cnt ≤ cnt + (endA - posA) := by
  intro fuel
  induction fuel with
  | zero => intro posA posB cnt; simp [align_loop]
  | succ f ih =>
    intro posA posB cnt
    rw [align_loop]
    by_cases hc : posA < endA ∧ posB < endB
    · obtain ⟨hc1, hc2⟩ := hc
      rw [if_pos ⟨hc1, hc2⟩]
      by_cases hm : norm_at A posA = norm_at B posB
      · rw [if_pos hm]
        have := ih (posA + 1) (posB + 1) (cnt + 1)
        omega
      · rw [if_neg hm]
        cases hg : align_find_gap (norm_at A posA) B posB endB gap with
        | some g => exact ih posA (posB + g) cnt
        | none =>
          cases hg2 : align_find_gap (norm_at B posB) A posA endA gap with
          | some g =>
            have := ih (posA + g) posB cnt
            show align_loop A B endA endB gap f (posA + g) posB cnt ≤ cnt + (endA - posA)
            omega
          | none =>
            have := ih (posA + 1) (posB + 1) cnt
            show align_loop A B endA endB gap f (posA + 1) (posB + 1) cnt ≤
              cnt + (endA - posA)
            omega
    · rw [if_neg hc]
      omega

theorem align_loop_le_b (A B : List NormalizedToken) (endA endB gap : ℕ) :
    ∀ (fuel posA posB cnt : ℕ),
      align_loop A B endA endB gap fuel posA posB cnt ≤ cnt + (endB - posB) := by
  intro fuel
  induction fuel with
  | zero => intro posA posB cnt; simp [align_loop]
  | succ f ih =>
    intro posA posB cnt
    rw [align_loop]
    by_cases hc : posA < endA ∧ posB < endB
    · obtain ⟨hc1, hc2⟩ := hc
      rw [if_pos ⟨hc1, hc2⟩]
      by_cases hm : norm_at A posA = norm_at B posB
      · rw [if_pos hm]
        have := ih (posA + 1) (posB + 1) (cnt + 1)
        omega
      · rw [if_neg hm]
        cases hg : align_find_gap (norm_at A posA) B posB endB gap with
        | some g =>
          have := ih posA (posB + g) cnt
          show align_loop A B endA endB gap f posA (posB + g) cnt ≤ cnt + (endB - posB)
          omega
        | none =>
          cases hg2 : align_find_gap (norm_at B posB) A posA endA gap with
          | some g => exact ih (posA + g) posB cnt
          | none =>
            have := ih (posA + 1) (posB + 1) cnt
            show align_loop A B endA endB gap f (posA + 1) (posB + 1) cnt ≤
              cnt + (endB - posB)
            omega
    · rw [if_neg hc]
      omega

theorem sim_ge_one_counts_eq (A : List NormalizedToken) (sa ca : ℕ)
    (B : List NormalizedToken) (sb cb : ℕ) (gap : ℕ)
    (h : 1 ≤ CloneExtender.alignment_similarity A sa ca B sb cb gap) : ca = cb := by
  rcases Decidable.em (ca = 0 ∨ cb = 0) with h0 | h0
  · simp only [CloneExtender.alignment_similarity, if_pos h0] at h
    norm_num at h
  · simp only [CloneExtender.alignment_similarity, if_neg h0] at h
    have hca : 0 < ca := by omega
    have hcb : 0 < cb := by omega
    have hmaxq : (0 : ℚ) < ((max ca cb : ℕ) : ℚ) := by
      exact_mod_cast Nat.lt_of_lt_of_le hca (Nat.le_max_left ca cb)
    rw [one_le_div hmaxq] at h
    have hle : max ca cb ≤ align_loop A B (min (sa + ca) A.length) (min (sb + cb) B.length)
        gap ((min (sa + ca) A.length - sa) + (min (sb + cb) B.length - sb) + 1) sa sb 0 := by
      exact_mod_cast h
    have h1 := align_loop_le_a A B (min (sa + ca) A.length) (min (sb + cb) B.length) gap
      ((min (sa + ca) A.length - sa) + (min (sb + cb) B.length - sb) + 1) sa sb 0
    have h2 := align_loop_le_b A B (min (sa + ca) A.length) (min (sb + cb) B.length) gap
      ((min (sa + ca) A.length - sa) + (min (sb + cb) B.length - sb) + 1) sa sb 0
    have hminA : min (sa + ca) A.length ≤ sa + ca := Nat.min_le_left _ _
    have hminB : min (sb + cb) B.length ≤ sb + cb := Nat.min_le_left _ _
    have hmax1 : ca ≤ max ca cb := Nat.le_max_left ca cb
    have hmax2 : cb ≤ max ca cb := Nat.le_max_right ca cb
    omega

theorem extend_accepted_type (cfg : CloneExtender.Config) (pair : ClonePair)
    (fa fb : TokenizedFile)
    (hacc : cfg.min_similarity ≤ recomputed_similarity cfg pair fa fb) :
    (CloneExtender.extend cfg pair fa fb).clone_type =
      if 1 ≤ recomputed_similarity cfg pair fa fb then
        (if all_original_match fa.tokens (extended_range cfg pair fa fb).start_a
            fb.tokens (extended_range cfg pair fa fb).start_b
            (min ((extended_range cfg pair fa fb).end_a -
                (extended_range cfg pair fa fb).start_a)
              ((extended_range cfg pair fa fb).end_b -
                (extended_range cfg pair fa fb).start_b))
          then CloneType.TYPE_1 else CloneType.TYPE_2)
      else CloneType.TYPE_3 := by
  simp only [CloneExtender.extend, if_neg (not_lt.mpr hacc)]

/-! ### Claim C4 -/

/-- C4, counterexample: a seed over two one-token files with different
normalized hashes has recomputed similarity 0 < 1, but because 0 is also
below min_similarity the extension is discarded and the returned pair keeps
the seed's Type-1 tag: a pair with recomputed similarity below 1.0 that is
not classified Type-3. -/
theorem extend_keeps_seed_type_below_one :
    recomputed_similarity ⟨5, 7/10, 30, 10⟩
        ⟨⟨0, 1, 1, 1, 2, 0, 1⟩, ⟨1, 1, 1, 1, 2, 0, 1⟩, CloneType.TYPE_1, 1, 0⟩
        ⟨"a", [⟨TokenType.KEYWORD, 1, 1, 1, 1, 1⟩], 1, 1, 0, 0⟩
        ⟨"b", [⟨TokenType.KEYWORD, 2, 2, 1, 1, 1⟩], 1, 1, 0, 0⟩ < 1 ∧
    (CloneExtender.extend ⟨5, 7/10, 30, 10⟩
        ⟨⟨0, 1, 1, 1, 2, 0, 1⟩, ⟨1, 1, 1, 1, 2, 0, 1⟩, CloneType.TYPE_1, 1, 0⟩
        ⟨"a", [⟨TokenType.KEYWORD, 1, 1, 1, 1, 1⟩], 1, 1, 0, 0⟩
        ⟨"b", [⟨TokenType.KEYWORD, 2, 2, 1, 1, 1⟩], 1, 1, 0, 0⟩).clone_type ≠
      CloneType.TYPE_3 := by
  have hsim : recomputed_similarity ⟨5, 7/10, 30, 10⟩
      ⟨⟨0, 1, 1, 1, 2, 0, 1⟩, ⟨1, 1, 1, 1, 2, 0, 1⟩, CloneType.TYPE_1, 1, 0⟩
      ⟨"a", [⟨TokenType.KEYWORD, 1, 1, 1, 1, 1⟩], 1, 1, 0, 0⟩
      ⟨"b", [⟨TokenType.KEYWORD, 2, 2, 1, 1, 1⟩], 1, 1, 0, 0⟩ =
      ((0 : ℕ) : ℚ) / ((1 : ℕ) : ℚ) := rfl
  have hlt : recomputed_similarity ⟨5, 7/10, 30, 10⟩
      ⟨⟨0, 1, 1, 1, 2, 0, 1⟩, ⟨1, 1, 1, 1, 2, 0, 1⟩, CloneType.TYPE_1, 1, 0⟩
      ⟨"a", [⟨TokenType.KEYWORD, 1, 1, 1, 1, 1⟩], 1, 1, 0, 0⟩
      ⟨"b", [⟨TokenType.KEYWORD, 2, 2, 1, 1, 1⟩], 1, 1, 0, 0⟩ <
      CloneExtender.Config.min_similarity ⟨5, 7/10, 30, 10⟩ := by
    rw [hsim]
    norm_num
  refine ⟨by rw [hsim]; norm_num, ?_⟩
  have hext : CloneExtender.extend ⟨5, 7/10, 30, 10⟩
      ⟨⟨0, 1, 1, 1, 2, 0, 1⟩, ⟨1, 1, 1, 1, 2, 0, 1⟩, CloneType.TYPE_1, 1, 0⟩
      ⟨"a", [⟨TokenType.KEYWORD, 1, 1, 1, 1, 1⟩], 1, 1, 0, 0⟩
      ⟨"b", [⟨TokenType.KEYWORD, 2, 2, 1, 1, 1⟩], 1, 1, 0, 0⟩ =
      ⟨⟨0, 1, 1, 1, 2, 0, 1⟩, ⟨1, 1, 1, 1, 2, 0, 1⟩, CloneType.TYPE_1, 1, 0⟩ := by
    simp only [CloneExtender.extend]
    rw [if_pos hlt]
  rw [hext]
  decide

/-- C4, amended: with Type-2 detection enabled, both files found and both
ranges inside their token arrays, classify_clone performs exactly the spec
4.4 test (differing counts give Type-2, else the lockstep original-hash
comparison decides Type-1 versus Type-2); after an extension that is
accepted (recomputed similarity at least min_similarity), a recomputed
similarity of exactly 1.0 forces equal extended counts and the same 4.4
test on the extended ranges, while an accepted recomputed similarity below
1.0 yields Type-3.  A rejected extension keeps the seed unchanged instead
(see the counterexample). -/
theorem classification_spec (det2 : Bool) (idx : HashIndex) (files : List TokenizedFile)
    (pair : ClonePair) (fa fb : TokenizedFile) (cfg : CloneExtender.Config)
    (hdet : det2 = true)
    (hfa : find_file_for files (idx.get_file_path pair.location_a.file_id) = some fa)
    (hfb : find_file_for files (idx.get_file_path pair.location_b.file_id) = some fb)
    (hba : pair.location_a.token_start + pair.location_a.token_count ≤ fa.tokens.length)
    (hbb : pair.location_b.token_start + pair.location_b.token_count ≤ fb.tokens.length)
    (hacc : cfg.min_similarity ≤ recomputed_similarity cfg pair fa fb) :
    SimilarityDetector.classify_clone det2 idx files pair =
      classify_type12 fa.tokens pair.location_a.token_start pair.location_a.token_count
        fb.tokens pair.location_b.token_start pair.location_b.token_count ∧
    (1 ≤ recomputed_similarity cfg pair fa fb →
      (extended_range cfg pair fa fb).end_a - (extended_range cfg pair fa fb).start_a =
        (extended_range cfg pair fa fb).end_b - (extended_range cfg pair fa fb).start_b ∧
      (CloneExtender.extend cfg pair fa fb).clone_type =
        classify_type12 fa.tokens (extended_range cfg pair fa fb).start_a
          ((extended_range cfg pair fa fb).end_a - (extended_range cfg pair fa fb).start_a)
          fb.tokens (extended_range cfg pair fa fb).start_b
          ((extended_range cfg pair fa fb).end_b -
            (extended_range cfg pair fa fb).start_b)) ∧
    (recomputed_similarity cfg pair fa fb < 1 →
      (CloneExtender.extend cfg pair fa fb).clone_type = CloneType.TYPE_3) := by
  refine ⟨?_, ?_, ?_⟩
  · subst hdet
    unfold SimilarityDetector.classify_clone
    rw [if_neg (not_not_intro rfl), hfa, hfb]
    have hnb : ¬(fa.tokens.length <
          pair.location_a.token_start + pair.location_a.token_count ∨
        fb.tokens.length < pair.location_b.token_start + pair.location_b.token_count) := by
      omega
    simp only []
    rw [if_neg hnb, classify_type12]
  · intro hone
    have h2 : 1 ≤ CloneExtender.alignment_similarity fa.tokens
        (extended_range cfg pair fa fb).start_a
        ((extended_range cfg pair fa fb).end_a - (extended_range cfg pair fa fb).start_a)
        fb.tokens (extended_range cfg pair fa fb).start_b
        ((extended_range cfg pair fa fb).end_b - (extended_range cfg pair fa fb).start_b)
        cfg.max_gap := by
      simpa only [recomputed_similarity] using hone
    have hcounts := sim_ge_one_counts_eq fa.tokens (extended_range cfg pair fa fb).start_a
      ((extended_range cfg pair fa fb).end_a - (extended_range cfg pair fa fb).start_a)
      fb.tokens (extended_range cfg pair fa fb).start_b
      ((extended_range cfg pair fa fb).end_b - (extended_range cfg pair fa fb).start_b)
      cfg.max_gap h2
    refine ⟨hcounts, ?_⟩
    have hne2 : ¬((extended_range cfg pair fa fb).end_a -
          (extended_range cfg pair fa fb).start_a ≠
        (extended_range cfg pair fa fb).end_b -
          (extended_range cfg pair fa fb).start_b) := not_not_intro hcounts
    rw [extend_accepted_type cfg pair fa fb hacc, if_pos hone, classify_type12,
      if_neg hne2, hcounts, Nat.min_self]
  · intro hlt
    rw [extend_accepted_type cfg pair fa fb hacc, if_neg (not_le.mpr hlt)]
/-- C4 witness: two one-token files with equal original hashes; the
recomputed similarity is exactly 1, every hypothesis of the amended
classification theorem holds, and classify_clone agrees with the spec 4.4
test. -/
theorem classification_spec_witness :
    SimilarityDetector.classify_clone true ⟨[], ["x", "y"]⟩
        [⟨"x", [⟨TokenType.KEYWORD, 9, 9, 1, 1, 1⟩], 1, 1, 0, 0⟩,
         ⟨"y", [⟨TokenType.KEYWORD, 9, 9, 1, 1, 1⟩], 1, 1, 0, 0⟩]
        ⟨⟨0, 1, 1, 1, 2, 0, 1⟩, ⟨1, 1, 1, 1, 2, 0, 1⟩, CloneType.TYPE_1, 1, 0⟩ =
      classify_type12 [⟨TokenType.KEYWORD, 9, 9, 1, 1, 1⟩] 0 1
        [⟨TokenType.KEYWORD, 9, 9, 1, 1, 1⟩] 0 1 := by
  have hacc : CloneExtender.Config.min_similarity ⟨5, 7/10, 30, 10⟩ ≤
      recomputed_similarity ⟨5, 7/10, 30, 10⟩
        ⟨⟨0, 1, 1, 1, 2, 0, 1⟩, ⟨1, 1, 1, 1, 2, 0, 1⟩, CloneType.TYPE_1, 1, 0⟩
        ⟨"x", [⟨TokenType.KEYWORD, 9, 9, 1, 1, 1⟩], 1, 1, 0, 0⟩
        ⟨"y", [⟨TokenType.KEYWORD, 9, 9, 1, 1, 1⟩], 1, 1, 0, 0⟩ := by
    have h1 : recomputed_similarity ⟨5, 7/10, 30, 10⟩
        ⟨⟨0, 1, 1, 1, 2, 0, 1⟩, ⟨1, 1, 1, 1, 2, 0, 1⟩, CloneType.TYPE_1, 1, 0⟩
        ⟨"x", [⟨TokenType.KEYWORD, 9, 9, 1, 1, 1⟩], 1, 1, 0, 0⟩
        ⟨"y", [⟨TokenType.KEYWORD, 9, 9, 1, 1, 1⟩], 1, 1, 0, 0⟩ =
        ((1 : ℕ) : ℚ) / ((1 : ℕ) : ℚ) := rfl
    rw [h1]
    norm_num
  exact (classification_spec true ⟨[], ["x", "y"]⟩
    [⟨"x", [⟨TokenType.KEYWORD, 9, 9, 1, 1, 1⟩], 1, 1, 0, 0⟩,
     ⟨"y", [⟨TokenType.KEYWORD, 9, 9, 1, 1, 1⟩], 1, 1, 0, 0⟩]
    ⟨⟨0, 1, 1, 1, 2, 0, 1⟩, ⟨1, 1, 1, 1, 2, 0, 1⟩, CloneType.TYPE_1, 1, 0⟩
    ⟨"x", [⟨TokenType.KEYWORD, 9, 9, 1, 1, 1⟩], 1, 1, 0, 0⟩
    ⟨"y", [⟨TokenType.KEYWORD, 9, 9, 1, 1, 1⟩], 1, 1, 0, 0⟩
    ⟨5, 7/10, 30, 10⟩ rfl (by decide) (by decide) (by decide) (by decide) hacc).1
/-! ### Claim C5 -/

/-- C5: extend is atomic on rejection: a recomputed similarity below
min_similarity returns the seed pair itself, unchanged in every field; and
the per-seed body of extend_all passes a seed through unchanged whenever
either file path fails to resolve in the file map; extend_all is exactly
the concatenation of the per-seed bodies. -/
theorem extend_atomic_on_rejection (cfg : CloneExtender.Config) (pair : ClonePair)
    (fa fb : TokenizedFile) (files : List TokenizedFile) (idx : HashIndex) :
    (recomputed_similarity cfg pair fa fb < cfg.min_similarity →
      CloneExtender.extend cfg pair fa fb = pair) ∧
    ((file_map_find files (idx.get_file_path pair.location_a.file_id) = none ∨
      file_map_find files (idx.get_file_path pair.location_b.file_id) = none) →
      extend_one cfg files idx pair = [pair]) ∧
    (∀ pairs : List ClonePair, CloneExtender.extend_all cfg pairs files idx =
      pairs.flatMap (extend_one cfg files idx)) := by
  refine ⟨?_, ?_, fun pairs => rfl⟩
  · intro h
    simp only [CloneExtender.extend]
    rw [if_pos h]
  · intro h
    unfold extend_one
    cases hA : file_map_find files (idx.get_file_path pair.location_a.file_id) with
    | none =>
      cases hB : file_map_find files (idx.get_file_path pair.location_b.file_id) with
      | none => rfl
      | some fb2 => rfl
    | some fa2 =>
      cases hB : file_map_find files (idx.get_file_path pair.location_b.file_id) with
      | none => rfl
      | some fb2 =>
        rcases h with h | h
        · rw [h] at hA; exact Option.noConfusion hA
        · rw [h] at hB; exact Option.noConfusion hB

/-- C5 witness: the one-token seed with mismatched hashes has recomputed
similarity 0, below min_similarity 7/10, so extend returns it unchanged;
with an empty file map the per-seed body passes it through. -/
theorem extend_atomic_on_rejection_witness :
    recomputed_similarity ⟨5, 7/10, 30, 10⟩
        ⟨⟨0, 1, 1, 1, 2, 0, 1⟩, ⟨1, 1, 1, 1, 2, 0, 1⟩, CloneType.TYPE_1, 1, 0⟩
        ⟨"a", [⟨TokenType.KEYWORD, 1, 1, 1, 1, 1⟩], 1, 1, 0, 0⟩
        ⟨"b", [⟨TokenType.KEYWORD, 2, 2, 1, 1, 1⟩], 1, 1, 0, 0⟩ < (7 / 10 : ℚ) ∧
    CloneExtender.extend ⟨5, 7/10, 30, 10⟩
        ⟨⟨0, 1, 1, 1, 2, 0, 1⟩, ⟨1, 1, 1, 1, 2, 0, 1⟩, CloneType.TYPE_1, 1, 0⟩
        ⟨"a", [⟨TokenType.KEYWORD, 1, 1, 1, 1, 1⟩], 1, 1, 0, 0⟩
        ⟨"b", [⟨TokenType.KEYWORD, 2, 2, 1, 1, 1⟩], 1, 1, 0, 0⟩ =
      ⟨⟨0, 1, 1, 1, 2, 0, 1⟩, ⟨1, 1, 1, 1, 2, 0, 1⟩, CloneType.TYPE_1, 1, 0⟩ ∧
    extend_one ⟨5, 7/10, 30, 10⟩ [] HashIndex.empty
        ⟨⟨0, 1, 1, 1, 2, 0, 1⟩, ⟨1, 1, 1, 1, 2, 0, 1⟩, CloneType.TYPE_1, 1, 0⟩ =
      [⟨⟨0, 1, 1, 1, 2, 0, 1⟩, ⟨1, 1, 1, 1, 2, 0, 1⟩, CloneType.TYPE_1, 1, 0⟩] := by
  have hsim : recomputed_similarity ⟨5, 7/10, 30, 10⟩
      ⟨⟨0, 1, 1, 1, 2, 0, 1⟩, ⟨1, 1, 1, 1, 2, 0, 1⟩, CloneType.TYPE_1, 1, 0⟩
      ⟨"a", [⟨TokenType.KEYWORD, 1, 1, 1, 1, 1⟩], 1, 1, 0, 0⟩
      ⟨"b", [⟨TokenType.KEYWORD, 2, 2, 1, 1, 1⟩], 1, 1, 0, 0⟩ =
      ((0 : ℕ) : ℚ) / ((1 : ℕ) : ℚ) := rfl
  have h := extend_atomic_on_rejection ⟨5, 7/10, 30, 10⟩
    ⟨⟨0, 1, 1, 1, 2, 0, 1⟩, ⟨1, 1, 1, 1, 2, 0, 1⟩, CloneType.TYPE_1, 1, 0⟩
    ⟨"a", [⟨TokenType.KEYWORD, 1, 1, 1, 1, 1⟩], 1, 1, 0, 0⟩
    ⟨"b", [⟨TokenType.KEYWORD, 2, 2, 1, 1, 1⟩], 1, 1, 0, 0⟩ [] HashIndex.empty
  exact ⟨by rw [hsim]; norm_num, h.1 (by rw [hsim]; norm_num), h.2.1 (Or.inl rfl)⟩
/-! ### Claim C3: the pipeline and its same-file overlap invariant -/

/-- DetectorConfig (models/clone_types.hpp), with the float threshold as an
exact rational. -/
structure DetectorConfig where
  window_size : ℕ
  min_clone_tokens : ℕ
  similarity_threshold : ℚ
  detect_type2 : Bool
  detect_type3 : Bool
  max_gap_tokens : ℕ
  deriving Repr

/-- The final sort order of find_clones: token_count descending (std::sort
with comparator a.token_count() > b.token_count(), modeled as the induced
non-strict order). -/
def size_ge (a b : ClonePair) : Prop := ¬ (a.token_count < b.token_count)

instance (a b : ClonePair) : Decidable (size_ge a b) :=
  inferInstanceAs (Decidable (¬ _))

/-- SimilarityDetector::find_clones, sequential path: raw enumeration with
the default min_matches 1, merge with hardcoded gap 5, size filter,
classification, optional Type-3 extension with lookahead 10, sort by
token_count descending. -/
def SimilarityDetector.find_clones (cfg : DetectorConfig) (idx : HashIndex)
    (files : List TokenizedFile) : List ClonePair :=
  let pairs0 := idx.find_clone_pairs 1
  let pairs1 := HashIndex.merge_adjacent_clones pairs0 5
  let pairs2 := HashIndex.filter_by_size pairs1 cfg.min_clone_tokens
  let pairs3 := pairs2.map (fun p =>
    { p with clone_type := SimilarityDetector.classify_clone cfg.detect_type2 idx files p })
  let pairs4 := if cfg.detect_type3 then
      CloneExtender.extend_all
        ⟨cfg.max_gap_tokens, cfg.similarity_threshold, cfg.min_clone_tokens, 10⟩
        pairs3 files idx
    else pairs3
  List.insertionSort size_ge pairs4

/-- The analysis state built by tokenize_files followed by build_index: the
file paths are registered first (in order), then every file is added to the
index through HashIndexBuilder::add_file. -/
def build_state (cfg : DetectorConfig) (files : List TokenizedFile) : HashIndex :=
  let idx0 := files.foldl (fun idx f => (idx.register_file f.path).1) HashIndex.empty
  files.foldl
    (fun idx f => HashIndexBuilder.add_file idx cfg.window_size f cfg.detect_type2) idx0

/-- C3, counterexample: a single nine-token file whose token stream repeats
two bigrams; the raw enumeration emits two non-overlapping same-file seed
pairs, but merging with the hardcoded gap 5 fuses them into one pair whose
two sides overlap both in token range (they share token 4) and in line
range (they share line 5), and that pair survives the size filter into the
final output. -/
theorem pipeline_emits_overlapping_same_file_pair :
    ∃ p ∈ SimilarityDetector.find_clones ⟨2, 2, 7/10, true, false, 5⟩
        (build_state ⟨2, 2, 7/10, true, false, 5⟩
          [⟨"f.py",
            [⟨TokenType.KEYWORD, 1, 1, 1, 1, 1⟩, ⟨TokenType.KEYWORD, 2, 2, 2, 1, 1⟩,
             ⟨TokenType.KEYWORD, 3, 3, 3, 1, 1⟩, ⟨TokenType.KEYWORD, 4, 4, 4, 1, 1⟩,
             ⟨TokenType.KEYWORD, 1, 1, 5, 1, 1⟩, ⟨TokenType.KEYWORD, 2, 2, 6, 1, 1⟩,
             ⟨TokenType.KEYWORD, 5, 5, 7, 1, 1⟩, ⟨TokenType.KEYWORD, 4, 4, 8, 1, 1⟩,
             ⟨TokenType.KEYWORD, 1, 1, 9, 1, 1⟩], 9, 9, 0, 0⟩])
        [⟨"f.py",
          [⟨TokenType.KEYWORD, 1, 1, 1, 1, 1⟩, ⟨TokenType.KEYWORD, 2, 2, 2, 1, 1⟩,
           ⟨TokenType.KEYWORD, 3, 3, 3, 1, 1⟩, ⟨TokenType.KEYWORD, 4, 4, 4, 1, 1⟩,
           ⟨TokenType.KEYWORD, 1, 1, 5, 1, 1⟩, ⟨TokenType.KEYWORD, 2, 2, 6, 1, 1⟩,
           ⟨TokenType.KEYWORD, 5, 5, 7, 1, 1⟩, ⟨TokenType.KEYWORD, 4, 4, 8, 1, 1⟩,
           ⟨TokenType.KEYWORD, 1, 1, 9, 1, 1⟩], 9, 9, 0, 0⟩],
      p.location_a.file_id = p.location_b.file_id ∧
      p.location_b.token_start < p.location_a.token_start + p.location_a.token_count ∧
      p.location_a.token_start < p.location_b.token_start + p.location_b.token_count ∧
      line_ranges_overlap p.location_a p.location_b := by
  decide
theorem bucket_pairs_no_overlap (hash : ℕ) (l : List HashLocation) :
    ∀ p ∈ bucket_pairs hash l,
      ¬(p.location_a.file_id = p.location_b.file_id ∧
        line_ranges_overlap p.location_a p.location_b) := by
  induction l with
  | nil => intro p hp; exact absurd hp (List.not_mem_nil p)
  | cons a rest ih =>
    intro p hp
    rw [bucket_pairs, List.mem_append] at hp
    rcases hp with hp | hp
    · rw [pairs_with_first, List.mem_filterMap] at hp
      obtain ⟨b, _, hb⟩ := hp
      by_cases hcond : a.file_id = b.file_id ∧ a.overlaps b
      · rw [if_pos hcond] at hb
        exact absurd hb (Option.noConfusion)
      · rw [if_neg hcond] at hb
        cases Option.some.inj hb
        exact fun hcc => hcond ((overlaps_iff a b).mpr hcc)
    · exact ih p hp

/-- C3, amended: the invariant holds of the raw enumeration, not of the
final pipeline output: every pair emitted by HashIndex::find_clone_pairs
whose two sides lie in the same file has non-overlapping [start_line,
end_line] ranges (the overlap skip guarantees exactly this); merging can
subsequently fuse same-file pairs into pairs whose sides overlap in both
tokens and lines (see the counterexample). -/
theorem raw_pairs_no_self_overlap (idx : HashIndex) (m : ℕ) :
    ∀ p ∈ idx.find_clone_pairs m,
      p.location_a.file_id = p.location_b.file_id →
        ¬ line_ranges_overlap p.location_a p.location_b := by
  intro p hp hfile hover
  rw [HashIndex.find_clone_pairs, List.mem_flatMap] at hp
  obtain ⟨e, _, hpe⟩ := hp
  by_cases hlen : e.2.length < 2
  · rw [if_pos hlen] at hpe
    exact absurd hpe (List.not_mem_nil p)
  · rw [if_neg hlen] at hpe
    exact bucket_pairs_no_overlap e.1 e.2 p hpe ⟨hfile, hover⟩

/-- C3 witness: a bucket with two same-file locations on disjoint line
ranges emits their pair, and the amended theorem yields that its line
ranges indeed do not overlap. -/
theorem raw_pairs_no_self_overlap_witness :
    mk_clone_pair 7 ⟨0, 1, 2, 1, 2, 0, 2⟩ ⟨0, 5, 6, 1, 2, 4, 2⟩ ∈
      HashIndex.find_clone_pairs
        ⟨[(7, [⟨0, 1, 2, 1, 2, 0, 2⟩, ⟨0, 5, 6, 1, 2, 4, 2⟩])], ["f"]⟩ 1 ∧
    ¬ line_ranges_overlap (⟨0, 1, 2, 1, 2, 0, 2⟩ : HashLocation)
      ⟨0, 5, 6, 1, 2, 4, 2⟩ := by
  refine ⟨by decide, ?_⟩
  exact raw_pairs_no_self_overlap
    ⟨[(7, [⟨0, 1, 2, 1, 2, 0, 2⟩, ⟨0, 5, 6, 1, 2, 4, 2⟩])], ["f"]⟩ 1
    (mk_clone_pair 7 ⟨0, 1, 2, 1, 2, 0, 2⟩ ⟨0, 5, 6, 1, 2, 4, 2⟩) (by decide) rfl
